import Mathlib

/-!
# Warden: heartbeat registry and event dispatch

A shallow embedding of `warden.go` and `slices/slices.go`.

* Go slices of pointers (`[]*Host`, `[]*EventHandler`) are Lean lists of values.
* `time.Time` is an integer instant and `time.Duration` an integer span, both in
  the same unit, so `t.Add(d)` is `t + d`, `a.After(b)` is `a > b` and
  `a.Before(b)` is `a < b`.
* `time.Now()` is an explicit argument `now` of the operation that reads it.
* A handler is a callback; it is modelled by an identifier, and `go h.Handler(e, host, online)`
  appends a `Call` record to the list of invocations the operation returns.
  The list is in the order in which the goroutines are started.
* The mutex makes `Heartbeat`, `Hosts`, `Register` and one sweep cycle atomic
  with respect to each other; each is one function on the state here.
-/

namespace warden

/-- Go `type Host struct { Name string; IP string; Heartbeat time.Time }`. -/
structure Host where
  Name : String
  IP : String
  Heartbeat : Int
deriving DecidableEq, Repr

/-- Go `type Event string` with its four constants. -/
inductive Event where
  | EventOffline
  | EventOfflineAll
  | EventOnline
  | EventOnlineAll
deriving DecidableEq, Repr

/-- Go `type EventHandler struct { Event Event; Hosts []string; Handler Handler }`.
The callback is represented by an identifier. -/
structure EventHandler where
  Event : Event
  Hosts : List String
  Handler : Nat
deriving DecidableEq, Repr

/-- One started goroutine `go h.Handler(event, host, online)`. -/
structure Call where
  handler : Nat
  event : Event
  host : Host
  online : List Host
deriving DecidableEq, Repr

/-- Go `type Warden struct { hbTTL; mu; hosts; handlers }` (the mutex is not state). -/
structure Warden where
  hbTTL : Int
  hosts : List Host
  handlers : List EventHandler
deriving DecidableEq, Repr

/-- The value `&Warden{hbTTL: hbTTL}` built by `NewWarden`: empty table, no subscription. -/
def NewWarden (hbTTL : Int) : Warden :=
  { hbTTL := hbTTL, hosts := [], handlers := [] }

end warden

namespace slices

/-- `slices.Remove`: keeps, in order, the elements on which `test` is false. -/
def Remove {E : Type} (s : List E) (test : E → Bool) : List E :=
  s.foldl (fun r e => if !test e then r ++ [e] else r) []

/-- `slices.Contains`: true as soon as one element passes `test`. -/
def Contains {E : Type} : List E → (E → Bool) → Bool
  | [], _ => false
  | e :: s, test => if test e then true else Contains s test

end slices

namespace warden

/-- `contains(haystack, needle)`. -/
def contains (haystack : List String) (needle : String) : Bool :=
  slices.Contains haystack (fun e => e == needle)

/-- `containsAll(haystack, needles)`: every needle names a host of the haystack. -/
def containsAll (haystack : List Host) : List String → Bool
  | [] => true
  | n :: needles =>
    let c := slices.Contains haystack (fun h => h.Name == n)
    if !c then false else containsAll haystack needles

/-- `containsNone(haystack, needles)`: no needle names a host of the haystack. -/
def containsNone (haystack : List Host) : List String → Bool
  | [] => true
  | n :: needles =>
    let c := slices.Contains haystack (fun h => h.Name == n)
    if c then false else containsNone haystack needles

/-- `Warden.hostsCopy`: a fresh copy of every table entry, appended in table order. -/
def hostsCopy (w : Warden) : List Host :=
  w.hosts.foldl (fun hosts h => hosts ++ [Host.mk h.Name h.IP h.Heartbeat]) []

/-- Loop of `Warden.findHost` over the table from position `i` on; the returned
pointer is represented by the position of the entry in the table. -/
def findHostFrom (name : String) : List Host → Nat → Option Nat
  | [], _ => none
  | h :: hosts, i => if h.Name == name then some i else findHostFrom name hosts (i + 1)

/-- `Warden.findHost`: the first table entry called `name`, or `none` for `nil`. -/
def findHost (w : Warden) (name : String) : Option Nat :=
  findHostFrom name w.hosts 0

/-- Body of the `for _, h := range w.handlers` loop of `Warden.event` for one
subscription `h`: the goroutines it starts (none or one). -/
def eventCase (online : Bool) (host : Host) (onhosts : List Host) (h : EventHandler) :
    List Call :=
  match online with
  | true =>
    match h.Event with
    | Event.EventOnline =>
      if h.Hosts.length == 0 || contains h.Hosts host.Name then
        [Call.mk h.Handler Event.EventOnline host onhosts]
      else []
    | Event.EventOnlineAll =>
      let all : List Host := []
      let all := all ++ onhosts
      let all := all ++ [host]
      if h.Hosts.length == 0 || containsAll all h.Hosts then
        [Call.mk h.Handler Event.EventOnlineAll host onhosts]
      else []
    | _ => []
  | false =>
    match h.Event with
    | Event.EventOffline =>
      if h.Hosts.length == 0 || contains h.Hosts host.Name then
        [Call.mk h.Handler Event.EventOffline host onhosts]
      else []
    | Event.EventOfflineAll =>
      if h.Hosts.length == 0 && onhosts.length == 0 then
        [Call.mk h.Handler Event.EventOffline host onhosts]
      else
        if containsNone onhosts h.Hosts && contains h.Hosts host.Name then
          [Call.mk h.Handler Event.EventOfflineAll host onhosts]
        else []
    | _ => []

/-- The `for _, h := range w.handlers` loop of `Warden.event`. -/
def eventLoop (online : Bool) (host : Host) (onhosts : List Host) :
    List EventHandler → List Call
  | [] => []
  | h :: handlers => eventCase online host onhosts h ++ eventLoop online host onhosts handlers

/-- `Warden.event(online, host)`: snapshot the table, then run every subscription
in registration order. Returns the invocations started. -/
def event (w : Warden) (online : Bool) (host : Host) : List Call :=
  let onhosts := hostsCopy w
  eventLoop online host onhosts w.handlers

/-- `Warden.Heartbeat(host, ip)` run at instant `now`. A new host is announced
by `event` and then appended; a known host has its address and timestamp overwritten. -/
def Heartbeat (w : Warden) (host ip : String) (now : Int) : Warden × List Call :=
  match findHost w host with
  | none =>
    let h : Host := Host.mk host ip now
    let calls := event w true h
    ({ w with hosts := w.hosts ++ [h] }, calls)
  | some i =>
    ({ w with hosts := w.hosts.modify (fun h => { h with IP := ip, Heartbeat := now }) i }, [])

/-- `Warden.Hosts()`: the copy of the table; the state is untouched. -/
def Hosts (w : Warden) : Warden × List Host :=
  (w, hostsCopy w)

/-- `Warden.Register(event, hosts, handler)`. -/
def Register (w : Warden) (event : Event) (hosts : List String) (handler : Nat) : Warden :=
  { w with handlers := w.handlers ++ [EventHandler.mk event hosts handler] }

/-- The removal loop `for i := 0; i < len(w.hosts); { ... }` of the sweeper.
`kept` is `w.hosts[:i]` and the list argument is `w.hosts[i:]`. An expired
`h = w.hosts[i]` is cut out (`w.hosts` becomes `kept ++ rest`) and announced by
`w.event(false, h)` with `i` unchanged; otherwise `i` advances. Returns the final
table and the invocations started, in order. -/
def sweepLoop (w : Warden) (now : Int) (kept : List Host) : List Host → List Host × List Call
  | [] => (kept, [])
  | h :: rest =>
    if !(decide (h.Heartbeat + w.hbTTL > now)) then
      let calls := event { w with hosts := kept ++ rest } false h
      let r := sweepLoop w now kept rest
      (r.1, calls ++ r.2)
    else
      sweepLoop w now (kept ++ [h]) rest

/-- The loop `for _, h := range w.hosts { exp := ...; if exp.Before(next) { next = exp } }`. -/
def nextLoop (hbTTL : Int) (next : Int) : List Host → Int
  | [] => next
  | h :: hosts =>
    let exp := h.Heartbeat + hbTTL
    if exp < next then nextLoop hbTTL exp hosts else nextLoop hbTTL next hosts

/-- One cycle of the sweeper goroutine started by `NewWarden`, with `now` the
instant read at its start: the new state, the invocations started, and the
instant `next` until which the goroutine then sleeps. -/
def sweepCycle (w : Warden) (now : Int) : Warden × List Call × Int :=
  let next := now + w.hbTTL
  let r := sweepLoop w now [] w.hosts
  let w1 : Warden := { w with hosts := r.1 }
  let next := nextLoop w.hbTTL next w1.hosts
  (w1, r.2, next)

/-- A sequence of `Heartbeat(name, ip)` calls, each with the instant it reads,
run one after the other; the invocations of all calls in order. -/
def heartbeats (w : Warden) : List (String × String × Int) → Warden × List Call
  | [] => (w, [])
  | (name, ip, now) :: rest =>
    let r := Heartbeat w name ip now
    let s := heartbeats r.1 rest
    (s.1, r.2 ++ s.2)

/-- A host is still alive at `now` when its expiry instant is strictly later. -/
def alive (ttl now : Int) (h : Host) : Bool := decide (h.Heartbeat + ttl > now)


/-- The invocations, among `calls`, of the callback with identifier `k`. -/
def callsOf (k : Nat) (calls : List Call) : List Call :=
  calls.filter (fun c => c.handler == k)

/-- The subscription `s` is registered in `w` and no other subscription of `w`
shares its callback, so that the invocations of `s` are those of its callback. -/
def OnlySub (w : Warden) (s : EventHandler) : Prop :=
  w.handlers.filter (fun t => t.Handler == s.Handler) = [s]

instance (w : Warden) (s : EventHandler) : Decidable (OnlySub w s) :=
  inferInstanceAs (Decidable (w.handlers.filter (fun t => t.Handler == s.Handler) = [s]))

/-- States reachable from an empty table (with any ttl and any subscriptions) by
`Heartbeat`, `Register` and sweep cycles. -/
inductive Reachable : Warden → Prop where
  | init (ttl : Int) (handlers : List EventHandler) :
      Reachable { hbTTL := ttl, hosts := [], handlers := handlers }
  | heartbeat (w : Warden) (name ip : String) (now : Int) :
      Reachable w → Reachable (Heartbeat w name ip now).1
  | sweep (w : Warden) (now : Int) :
      Reachable w → Reachable (sweepCycle w now).1
  | register (w : Warden) (e : Event) (hosts : List String) (handler : Nat) :
      Reachable w → Reachable (Register w e hosts handler)

/-- A table with one host whose heartbeat was stamped after the sweeper read `now = 0`. -/
def lateTable : Warden :=
  { hbTTL := 5, hosts := [Host.mk "a" "10.0.0.1" 10], handlers := [] }

/-- A table holding `b`, with an Offline subscription on every host and an
Online subscription on `a`. -/
def watchA : Warden :=
  { hbTTL := 5
    hosts := [Host.mk "b" "10.0.0.2" 0]
    handlers := [EventHandler.mk Event.EventOffline [] 3,
                 EventHandler.mk Event.EventOnline ["a"] 7] }

/-- An empty table with one Online subscription on every host. -/
def soloOnline : Warden :=
  { hbTTL := 5
    hosts := []
    handlers := [EventHandler.mk Event.EventOnline [] 0] }

/-- The number of invocations in `calls` whose transitioning host is called `name`. -/
def countFor (name : String) (calls : List Call) : Nat :=
  (calls.filter (fun c => c.host.Name == name)).length

/-- An empty table with one OnlineAll subscription on the group `a`, `b`. -/
def groupAB : Warden :=
  { hbTTL := 5
    hosts := []
    handlers := [EventHandler.mk Event.EventOnlineAll ["a", "b"] 0] }

/-- A table whose host `a` (heartbeat at 0) is expired at `now = 5` with ttl 5,
with one Online subscription on every host. -/
def expiredA : Warden :=
  { hbTTL := 5
    hosts := [Host.mk "a" "10.0.0.1" 0, Host.mk "b" "10.0.0.2" 3]
    handlers := [EventHandler.mk Event.EventOnline [] 0] }

/-- The test selecting the hosts a sweep at `now` removes and whose name is in `F`. -/
def expiredIn (ttl now : Int) (F : List String) (h : Host) : Bool :=
  !(alive ttl now h) && decide (h.Name ∈ F)

/-- A table at `now = 10`, ttl 5: `a` and `c` are expired, `b` (not watched) is
alive; one OfflineAll subscription on the group `a`, `c`. -/
def groupDown : Warden :=
  { hbTTL := 5
    hosts := [Host.mk "a" "10.0.0.1" 1, Host.mk "b" "10.0.0.2" 8, Host.mk "c" "10.0.0.3" 5]
    handlers := [EventHandler.mk Event.EventOnline [] 1,
                 EventHandler.mk Event.EventOfflineAll ["a", "c"] 2] }

/-- A table at `now = 10`, ttl 5, whose two hosts are both expired; one
OfflineAll subscription on every host. -/
def fleetDown : Warden :=
  { hbTTL := 5
    hosts := [Host.mk "a" "10.0.0.1" 1, Host.mk "b" "10.0.0.2" 5]
    handlers := [EventHandler.mk Event.EventOffline [] 1,
                 EventHandler.mk Event.EventOfflineAll [] 2] }

/-- A table at `now = 10`, ttl 5: `a` and `c` are expired, `b` is alive; one
Offline subscription on every host. -/
def watchOffline : Warden :=
  { hbTTL := 5
    hosts := [Host.mk "a" "10.0.0.1" 1, Host.mk "b" "10.0.0.2" 8, Host.mk "c" "10.0.0.3" 5]
    handlers := [EventHandler.mk Event.EventOffline [] 4] }

/-! ## Helper lemmas on the slice predicates -/

theorem slices_Contains_eq_any {E : Type} (s : List E) (test : E → Bool) :
    slices.Contains s test = s.any test := by
  induction s with
  | nil => rfl
  | cons e s ih =>
    simp only [slices.Contains, List.any_cons, ih]
    cases test e <;> simp

theorem contains_iff (haystack : List String) (needle : String) :
    contains haystack needle = true ↔ needle ∈ haystack := by
  simp only [contains, slices_Contains_eq_any, List.any_eq_true, beq_iff_eq]
  constructor
  · rintro ⟨x, hx, rfl⟩; exact hx
  · intro h; exact ⟨needle, h, rfl⟩

theorem containsAll_iff (haystack : List Host) (needles : List String) :
    containsAll haystack needles = true ↔ ∀ n ∈ needles, ∃ h ∈ haystack, h.Name = n := by
  induction needles with
  | nil => simp [containsAll]
  | cons n needles ih =>
    simp only [containsAll, slices_Contains_eq_any, List.mem_cons, forall_eq_or_imp]
    by_cases hc : haystack.any (fun h => h.Name == n) = true
    · simp only [hc, Bool.not_true, Bool.false_eq_true, ↓reduceIte, ih]
      simp only [List.any_eq_true, beq_iff_eq] at hc
      exact ⟨fun h => ⟨hc, h⟩, fun h => h.2⟩
    · have hc2 : ¬ ∃ h ∈ haystack, h.Name = n := by
        simpa only [List.any_eq_true, beq_iff_eq] using hc
      simp only [Bool.not_eq_true] at hc
      simp only [hc, Bool.not_false, ↓reduceIte, Bool.false_eq_true, false_iff, not_and]
      intro h
      exact absurd h hc2

theorem containsNone_iff (haystack : List Host) (needles : List String) :
    containsNone haystack needles = true ↔ ∀ n ∈ needles, ∀ h ∈ haystack, h.Name ≠ n := by
  induction needles with
  | nil => simp [containsNone]
  | cons n needles ih =>
    simp only [containsNone, slices_Contains_eq_any, List.mem_cons, forall_eq_or_imp]
    by_cases hc : haystack.any (fun h => h.Name == n) = true
    · simp only [hc, ↓reduceIte, Bool.false_eq_true, false_iff, not_and]
      simp only [List.any_eq_true, beq_iff_eq] at hc
      obtain ⟨h, hh, hn⟩ := hc
      intro hall
      exact absurd hn (hall h hh)
    · simp only [hc, Bool.false_eq_true, ↓reduceIte, ih, iff_and_self]
      simp only [List.any_eq_true, beq_iff_eq, not_exists, not_and] at hc
      intro _ h hh
      exact hc h hh

theorem hostsCopy_foldl (acc l : List Host) :
    l.foldl (fun hosts h => hosts ++ [Host.mk h.Name h.IP h.Heartbeat]) acc = acc ++ l := by
  induction l generalizing acc with
  | nil => simp
  | cons h l ih => simp [List.foldl_cons, ih]

theorem hostsCopy_eq (w : Warden) : hostsCopy w = w.hosts := by
  simp [hostsCopy, hostsCopy_foldl]

theorem sweepLoop_hosts (w : Warden) (now : Int) (kept rest : List Host) :
    (sweepLoop w now kept rest).1 = kept ++ rest.filter (alive w.hbTTL now) := by
  induction rest generalizing kept with
  | nil => simp [sweepLoop]
  | cons h rest ih =>
    by_cases ha : h.Heartbeat + w.hbTTL > now
    · simp [sweepLoop, ha, ih, alive]
    · simp [sweepLoop, ha, ih, alive]

theorem sweepCycle_hosts (w : Warden) (now : Int) :
    (sweepCycle w now).1.hosts = w.hosts.filter (alive w.hbTTL now) := by
  simp [sweepCycle, sweepLoop_hosts]

/-! ## Helper lemmas on the wake-up loop -/

theorem nextLoop_le_init (ttl next : Int) (hosts : List Host) :
    nextLoop ttl next hosts ≤ next := by
  induction hosts generalizing next with
  | nil => simp [nextLoop]
  | cons h hosts ih =>
    simp only [nextLoop]
    split
    · exact le_trans (ih _) (by omega)
    · exact ih _

theorem nextLoop_le_mem (ttl next : Int) (hosts : List Host) :
    ∀ h ∈ hosts, nextLoop ttl next hosts ≤ h.Heartbeat + ttl := by
  induction hosts generalizing next with
  | nil => simp
  | cons h hosts ih =>
    intro x hx
    simp only [nextLoop]
    rcases List.mem_cons.mp hx with rfl | hx
    · split
      · exact nextLoop_le_init _ _ _
      · exact le_trans (nextLoop_le_init _ _ _) (by omega)
    · split
      · exact ih _ x hx
      · exact ih _ x hx

theorem nextLoop_attained (ttl next : Int) (hosts : List Host) :
    nextLoop ttl next hosts = next ∨ ∃ h ∈ hosts, nextLoop ttl next hosts = h.Heartbeat + ttl := by
  induction hosts generalizing next with
  | nil => simp [nextLoop]
  | cons h hosts ih =>
    simp only [nextLoop]
    split
    · rcases ih (h.Heartbeat + ttl) with h1 | ⟨x, hx, h1⟩
      · exact Or.inr ⟨h, List.mem_cons_self _ _, h1⟩
      · exact Or.inr ⟨x, List.mem_cons_of_mem _ hx, h1⟩
    · rcases ih next with h1 | ⟨x, hx, h1⟩
      · exact Or.inl h1
      · exact Or.inr ⟨x, List.mem_cons_of_mem _ hx, h1⟩

/-! ## Helper lemmas on `findHost` and `Heartbeat` -/

theorem findHostFrom_none_iff (name : String) (hosts : List Host) (i : Nat) :
    findHostFrom name hosts i = none ↔ ∀ h ∈ hosts, h.Name ≠ name := by
  induction hosts generalizing i with
  | nil => simp [findHostFrom]
  | cons h hosts ih =>
    by_cases hn : h.Name = name
    · simp [findHostFrom, hn]
    · simp [findHostFrom, hn, ih]

theorem findHost_none_iff (w : Warden) (name : String) :
    findHost w name = none ↔ ∀ h ∈ w.hosts, h.Name ≠ name :=
  findHostFrom_none_iff name w.hosts 0

theorem map_Name_modify (ip : String) (now : Int) (hosts : List Host) (i : Nat) :
    (hosts.modify (fun h => { h with IP := ip, Heartbeat := now }) i).map Host.Name
      = hosts.map Host.Name := by
  induction hosts generalizing i with
  | nil => simp
  | cons h hosts ih =>
    cases i with
    | zero => simp
    | succ i => simp [ih]

theorem Heartbeat_absent (w : Warden) (name ip : String) (now : Int)
    (habs : ∀ h ∈ w.hosts, h.Name ≠ name) :
    Heartbeat w name ip now
      = ({ w with hosts := w.hosts ++ [Host.mk name ip now] },
         event w true (Host.mk name ip now)) := by
  have hf := (findHost_none_iff w name).mpr habs
  simp [Heartbeat, hf]

theorem Heartbeat_present (w : Warden) (name ip : String) (now : Int)
    (hpres : ∃ h ∈ w.hosts, h.Name = name) :
    (Heartbeat w name ip now).2 = []
      ∧ (Heartbeat w name ip now).1.hosts.map Host.Name = w.hosts.map Host.Name
      ∧ (Heartbeat w name ip now).1.handlers = w.handlers
      ∧ (Heartbeat w name ip now).1.hbTTL = w.hbTTL := by
  cases hf : findHost w name with
  | none =>
    obtain ⟨h, hh, hn⟩ := hpres
    exact absurd hn ((findHost_none_iff w name).mp hf h hh)
  | some i =>
    simp [Heartbeat, hf, map_Name_modify]

theorem Heartbeat_handlers (w : Warden) (name ip : String) (now : Int) :
    (Heartbeat w name ip now).1.handlers = w.handlers := by
  unfold Heartbeat
  split <;> rfl

theorem Heartbeat_names_nodup (w : Warden) (name ip : String) (now : Int)
    (hnd : (w.hosts.map Host.Name).Nodup) :
    ((Heartbeat w name ip now).1.hosts.map Host.Name).Nodup := by
  by_cases hpres : ∃ h ∈ w.hosts, h.Name = name
  · rw [(Heartbeat_present w name ip now hpres).2.1]
    exact hnd
  · have habs : ∀ h ∈ w.hosts, h.Name ≠ name := by
      intro h hh hn
      exact hpres ⟨h, hh, hn⟩
    rw [Heartbeat_absent w name ip now habs]
    simp only [List.map_append, List.map_cons, List.map_nil]
    refine List.Nodup.append hnd (List.nodup_singleton _) ?_
    intro x hx hx2
    simp only [List.mem_singleton] at hx2
    subst hx2
    obtain ⟨h, hh, hn⟩ := List.mem_map.mp hx
    exact habs h hh hn

theorem sweepCycle_names_nodup (w : Warden) (now : Int)
    (hnd : (w.hosts.map Host.Name).Nodup) :
    ((sweepCycle w now).1.hosts.map Host.Name).Nodup := by
  rw [sweepCycle_hosts]
  exact List.Nodup.sublist ((List.filter_sublist _).map _) hnd

/-! ## Helper lemmas: the invocations of one callback -/

theorem eventCase_handler (online : Bool) (host : Host) (onhosts : List Host)
    (s : EventHandler) : ∀ c ∈ eventCase online host onhosts s, c.handler = s.Handler := by
  intro c hc
  unfold eventCase at hc
  split at hc <;> split at hc <;> (try split at hc) <;> (try split at hc) <;> simp_all

theorem callsOf_append (k : Nat) (a b : List Call) :
    callsOf k (a ++ b) = callsOf k a ++ callsOf k b := by
  simp [callsOf]

theorem callsOf_eventCase (k : Nat) (online : Bool) (host : Host) (onhosts : List Host)
    (s : EventHandler) :
    callsOf k (eventCase online host onhosts s)
      = if s.Handler == k then eventCase online host onhosts s else [] := by
  have hh := eventCase_handler online host onhosts s
  by_cases hk : s.Handler = k
  · simp only [hk, beq_self_eq_true, if_true, callsOf]
    apply List.filter_eq_self.mpr
    intro c hc
    simp [hh c hc, hk]
  · simp only [beq_iff_eq, hk, if_false, callsOf]
    apply List.filter_eq_nil_iff.mpr
    intro c hc
    simp [hh c hc, hk]

theorem callsOf_eventLoop (k : Nat) (online : Bool) (host : Host) (onhosts : List Host)
    (hs : List EventHandler) :
    callsOf k (eventLoop online host onhosts hs)
      = eventLoop online host onhosts (hs.filter (fun t => t.Handler == k)) := by
  induction hs with
  | nil => simp [eventLoop, callsOf]
  | cons s hs ih =>
    simp only [eventLoop, callsOf_append, callsOf_eventCase, ih, List.filter_cons]
    by_cases hk : s.Handler = k
    · simp [hk, eventLoop]
    · simp [hk]

/-- The invocations of callback `k` are those of the state restricted to the
subscriptions whose callback is `k`. -/
theorem callsOf_event (k : Nat) (w : Warden) (online : Bool) (host : Host) :
    callsOf k (event w online host)
      = event { w with handlers := w.handlers.filter (fun t => t.Handler == k) } online host := by
  simp [event, callsOf_eventLoop, hostsCopy]

theorem callsOf_sweepLoop (k : Nat) (w : Warden) (now : Int) (kept rest : List Host) :
    callsOf k (sweepLoop w now kept rest).2
      = (sweepLoop { w with handlers := w.handlers.filter (fun t => t.Handler == k) }
          now kept rest).2 := by
  induction rest generalizing kept with
  | nil => simp [sweepLoop, callsOf]
  | cons h rest ih =>
    by_cases ha : h.Heartbeat + w.hbTTL > now
    · simp [sweepLoop, ha, ih]
    · simp only [sweepLoop, ha, decide_False, Bool.not_false, if_true, callsOf_append, ih,
        callsOf_event]

theorem callsOf_sweepCycle (k : Nat) (w : Warden) (now : Int) :
    callsOf k (sweepCycle w now).2.1
      = (sweepCycle { w with handlers := w.handlers.filter (fun t => t.Handler == k) }
          now).2.1 := by
  simp [sweepCycle, callsOf_sweepLoop]

theorem callsOf_Heartbeat (k : Nat) (w : Warden) (name ip : String) (now : Int) :
    callsOf k (Heartbeat w name ip now).2
      = (Heartbeat { w with handlers := w.handlers.filter (fun t => t.Handler == k) }
          name ip now).2 := by
  unfold Heartbeat findHost
  simp only
  split
  · simp [callsOf_event]
  · simp [callsOf]

theorem eventCase_args (online : Bool) (host : Host) (onhosts : List Host)
    (s : EventHandler) :
    ∀ c ∈ eventCase online host onhosts s, c.host = host ∧ c.online = onhosts := by
  intro c hc
  unfold eventCase at hc
  split at hc <;> split at hc <;> (try split at hc) <;> (try split at hc) <;> simp_all

theorem eventCase_length (online : Bool) (host : Host) (onhosts : List Host)
    (s : EventHandler) : (eventCase online host onhosts s).length ≤ 1 := by
  unfold eventCase
  repeat' split
  all_goals try simp
  all_goals split <;> simp

theorem eventLoop_args (online : Bool) (host : Host) (onhosts : List Host)
    (hs : List EventHandler) :
    ∀ c ∈ eventLoop online host onhosts hs, c.host = host ∧ c.online = onhosts := by
  induction hs with
  | nil => simp [eventLoop]
  | cons s hs ih =>
    intro c hc
    simp only [eventLoop, List.mem_append] at hc
    rcases hc with hc | hc
    · exact eventCase_args online host onhosts s c hc
    · exact ih c hc

theorem event_args (w : Warden) (online : Bool) (host : Host) :
    ∀ c ∈ event w online host, c.host = host ∧ c.online = w.hosts := by
  intro c hc
  have := eventLoop_args online host (hostsCopy w) w.handlers c hc
  rwa [hostsCopy_eq] at this

theorem callsOf_event_only (w : Warden) (s : EventHandler) (hs : OnlySub w s)
    (online : Bool) (host : Host) :
    callsOf s.Handler (event w online host) = eventCase online host w.hosts s := by
  rw [callsOf_event]
  unfold OnlySub at hs
  simp [event, hs, eventLoop, hostsCopy_eq, hostsCopy_foldl, hostsCopy]

/-! ## Helper lemmas on sequences of heartbeats -/

theorem Heartbeat_with_handlers (w : Warden) (hs : List EventHandler) (name ip : String)
    (now : Int) :
    (Heartbeat { w with handlers := hs } name ip now).1
      = { (Heartbeat w name ip now).1 with handlers := hs } := by
  unfold Heartbeat findHost
  simp only
  split <;> rfl

theorem callsOf_heartbeats (k : Nat) (w : Warden) (beats : List (String × String × Int)) :
    callsOf k (heartbeats w beats).2
      = (heartbeats { w with handlers := w.handlers.filter (fun t => t.Handler == k) }
          beats).2 := by
  induction beats generalizing w with
  | nil => simp [heartbeats, callsOf]
  | cons b beats ih =>
    obtain ⟨name, ip, now⟩ := b
    simp only [heartbeats, callsOf_append, callsOf_Heartbeat, ih, Heartbeat_with_handlers,
      Heartbeat_handlers]

theorem mem_names_iff (hosts : List Host) (name : String) :
    name ∈ hosts.map Host.Name ↔ ∃ h ∈ hosts, h.Name = name := by
  simp [List.mem_map]

theorem countFor_append (name : String) (a b : List Call) :
    countFor name (a ++ b) = countFor name a + countFor name b := by
  simp [countFor]

theorem countFor_le_length (name : String) (a : List Call) :
    countFor name a ≤ a.length := by
  simp only [countFor]
  exact List.length_filter_le _ _

theorem countFor_eq_zero (name : String) (a : List Call)
    (h : ∀ c ∈ a, c.host.Name ≠ name) : countFor name a = 0 := by
  simp only [countFor, List.length_eq_zero, List.filter_eq_nil_iff, beq_iff_eq]
  exact h

theorem event_single_length (w : Warden) (s : EventHandler) (hs : w.handlers = [s])
    (online : Bool) (host : Host) : (event w online host).length ≤ 1 := by
  simp only [event, hs, eventLoop, List.append_nil]
  exact eventCase_length _ _ _ _

theorem heartbeats_single_count (s : EventHandler) (name : String)
    (beats : List (String × String × Int)) (w : Warden) (hs : w.handlers = [s]) :
    (name ∈ w.hosts.map Host.Name → countFor name (heartbeats w beats).2 = 0)
      ∧ countFor name (heartbeats w beats).2 ≤ 1 := by
  induction beats generalizing w with
  | nil => simp [heartbeats, countFor]
  | cons b beats ih =>
    obtain ⟨n, ip, t⟩ := b
    simp only [heartbeats, countFor_append]
    have hh : (Heartbeat w n ip t).1.handlers = [s] := by
      rw [Heartbeat_handlers, hs]
    obtain ⟨ih0, ih1⟩ := ih (Heartbeat w n ip t).1 hh
    by_cases hpres : ∃ h ∈ w.hosts, h.Name = n
    · obtain ⟨hc, hn, _, _⟩ := Heartbeat_present w n ip t hpres
      rw [hn] at ih0
      simp only [hc, countFor, List.filter_nil, List.length_nil, Nat.zero_add]
      exact ⟨ih0, ih1⟩
    · have habs : ∀ h ∈ w.hosts, h.Name ≠ n := fun h hh hn => hpres ⟨h, hh, hn⟩
      have hb := Heartbeat_absent w n ip t habs
      have hcalls : (Heartbeat w n ip t).2 = event w true (Host.mk n ip t) := by rw [hb]
      have hhosts : (Heartbeat w n ip t).1.hosts = w.hosts ++ [Host.mk n ip t] := by rw [hb]
      have hlen : countFor name (Heartbeat w n ip t).2 ≤ 1 := by
        rw [hcalls]
        exact le_trans (countFor_le_length _ _) (event_single_length w s hs _ _)
      rw [hhosts] at ih0
      by_cases hnn : n = name
      · subst hnn
        have hz := ih0 (by simp)
        constructor
        · intro hin
          obtain ⟨h, hh, hn⟩ := (mem_names_iff _ _).mp hin
          exact absurd hn (habs h hh)
        · omega
      · have hz : countFor name (Heartbeat w n ip t).2 = 0 := by
          apply countFor_eq_zero
          intro c hc
          rw [hcalls] at hc
          rw [(event_args w true _ c hc).1]
          exact hnn
        constructor
        · intro hin
          have := ih0 (by simp [List.mem_map] at hin ⊢; exact Or.inl hin)
          omega
        · omega

/-! ## Helper lemmas: OfflineAll subscriptions during the removal loop -/

theorem sweepLoop_single_cons_alive (w : Warden) (now : Int) (kept rest : List Host) (h : Host)
    (ha : alive w.hbTTL now h = true) :
    sweepLoop w now kept (h :: rest) = sweepLoop w now (kept ++ [h]) rest := by
  simp only [alive, decide_eq_true_eq] at ha
  simp [sweepLoop, ha]

theorem sweepLoop_single_cons_expired (w : Warden) (now : Int) (kept rest : List Host)
    (h : Host) (ha : alive w.hbTTL now h = false) :
    (sweepLoop w now kept (h :: rest)).2
      = event { w with hosts := kept ++ rest } false h ++ (sweepLoop w now kept rest).2 := by
  simp only [alive, decide_eq_false_iff_not] at ha
  simp [sweepLoop, ha]

theorem event_offAll_empty (w : Warden) (s : EventHandler) (hw : w.handlers = [s])
    (he : s.Event = Event.EventOfflineAll) (hF : s.Hosts = []) (T : List Host) (h : Host) :
    event { w with hosts := T } false h
      = if T = [] then [Call.mk s.Handler Event.EventOffline h []] else [] := by
  simp only [event, hw, eventLoop, List.append_nil, hostsCopy, hostsCopy_foldl, List.nil_append,
    eventCase, he, hF]
  by_cases hT : T = []
  · simp [hT]
  · simp [hT, contains, slices.Contains]

theorem sweepLoop_offAll_empty (w : Warden) (s : EventHandler) (hw : w.handlers = [s])
    (he : s.Event = Event.EventOfflineAll) (hF : s.Hosts = []) (now : Int)
    (rest : List Host) (kept : List Host) :
    (kept = [] → (∀ x ∈ rest, alive w.hbTTL now x = false) →
        ∀ h, rest.getLast? = some h →
        (sweepLoop w now kept rest).2 = [Call.mk s.Handler Event.EventOffline h []])
      ∧ (¬ (kept = [] ∧ rest ≠ [] ∧ ∀ x ∈ rest, alive w.hbTTL now x = false) →
          (sweepLoop w now kept rest).2 = []) := by
  induction rest generalizing kept with
  | nil => simp [sweepLoop]
  | cons h t ih =>
    cases ha : alive w.hbTTL now h with
    | true =>
      rw [sweepLoop_single_cons_alive w now kept t h ha]
      constructor
      · intro _ hall
        have := hall h (List.mem_cons_self _ _)
        simp [ha] at this
      · intro _
        exact (ih (kept ++ [h])).2 (by simp)
    | false =>
      rw [sweepLoop_single_cons_expired w now kept t h ha, event_offAll_empty w s hw he hF]
      constructor
      · intro hk hall x hx
        subst hk
        have hallt : ∀ y ∈ t, alive w.hbTTL now y = false :=
          fun y hy => hall y (List.mem_cons_of_mem _ hy)
        cases t with
        | nil =>
          simp only [List.getLast?_singleton, Option.some.injEq] at hx
          subst hx
          simp [sweepLoop]
        | cons b t =>
          rw [List.getLast?_cons_cons] at hx
          rw [(ih []).1 rfl hallt x hx]
          simp
      · intro hneg
        by_cases hk : kept = []
        · subst hk
          have hnall : ¬ ∀ x ∈ t, alive w.hbTTL now x = false := by
            intro hallt
            apply hneg
            refine ⟨rfl, by simp, ?_⟩
            intro x hx
            rcases List.mem_cons.mp hx with rfl | hx
            · exact ha
            · exact hallt x hx
          have ht : t ≠ [] := by
            intro ht
            subst ht
            exact hnall (by simp)
          rw [(ih []).2 (fun hc => hnall hc.2.2)]
          simp [ht]
        · rw [(ih kept).2 (fun hc => hk hc.1)]
          simp [hk]

theorem containsNone_false (T : List Host) (F : List String) (x : Host)
    (hx : x ∈ T) (hxF : x.Name ∈ F) : containsNone T F = false := by
  cases hc : containsNone T F with
  | false => rfl
  | true => exact absurd rfl ((containsNone_iff T F).mp hc x.Name hxF x hx)

theorem containsNone_true (T : List Host) (F : List String)
    (h : ∀ x ∈ T, x.Name ∉ F) : containsNone T F = true := by
  apply (containsNone_iff T F).mpr
  intro n hn x hx hxn
  exact h x hx (hxn ▸ hn)

theorem event_offAll (w : Warden) (s : EventHandler) (hw : w.handlers = [s])
    (he : s.Event = Event.EventOfflineAll) (hF : s.Hosts ≠ []) (T : List Host) (h : Host) :
    event { w with hosts := T } false h
      = if (containsNone T s.Hosts && contains s.Hosts h.Name) = true then
          [Call.mk s.Handler Event.EventOfflineAll h T]
        else [] := by
  simp only [event, hw, eventLoop, List.append_nil, hostsCopy, hostsCopy_foldl, List.nil_append,
    eventCase, he]
  simp [hF]

theorem sweepLoop_offAll (w : Warden) (s : EventHandler) (hw : w.handlers = [s])
    (he : s.Event = Event.EventOfflineAll) (hF : s.Hosts ≠ []) (now : Int)
    (rest : List Host) (kept : List Host) :
    ((∃ x ∈ kept ++ rest.filter (alive w.hbTTL now), x.Name ∈ s.Hosts) →
        (sweepLoop w now kept rest).2 = [])
      ∧ ((∀ x ∈ kept ++ rest.filter (alive w.hbTTL now), x.Name ∉ s.Hosts) →
          rest.filter (expiredIn w.hbTTL now s.Hosts) = [] →
          (sweepLoop w now kept rest).2 = [])
      ∧ ((∀ x ∈ kept ++ rest.filter (alive w.hbTTL now), x.Name ∉ s.Hosts) →
          ∀ h, (rest.filter (expiredIn w.hbTTL now s.Hosts)).getLast? = some h →
          ∃ snap, (sweepLoop w now kept rest).2
              = [Call.mk s.Handler Event.EventOfflineAll h snap]
            ∧ ∀ x ∈ snap, x.Name ∉ s.Hosts) := by
  induction rest generalizing kept with
  | nil => simp [sweepLoop]
  | cons h t ih =>
    cases ha : alive w.hbTTL now h with
    | true =>
      rw [sweepLoop_single_cons_alive w now kept t h ha]
      have e1 : kept ++ (h :: t).filter (alive w.hbTTL now)
          = (kept ++ [h]) ++ t.filter (alive w.hbTTL now) := by
        simp [List.filter_cons, ha]
      have e2 : (h :: t).filter (expiredIn w.hbTTL now s.Hosts)
          = t.filter (expiredIn w.hbTTL now s.Hosts) := by
        simp [List.filter_cons, expiredIn, ha]
      rw [e1, e2]
      exact ih (kept ++ [h])
    | false =>
      rw [sweepLoop_single_cons_expired w now kept t h ha, event_offAll w s hw he hF]
      have e1 : kept ++ (h :: t).filter (alive w.hbTTL now)
          = kept ++ t.filter (alive w.hbTTL now) := by
        simp [List.filter_cons, ha]
      rw [e1]
      obtain ⟨ih1, ih2, ih3⟩ := ih kept
      by_cases hin : h.Name ∈ s.Hosts
      · have e2 : (h :: t).filter (expiredIn w.hbTTL now s.Hosts)
            = h :: t.filter (expiredIn w.hbTTL now s.Hosts) := by
          simp [List.filter_cons, expiredIn, ha, hin]
        rw [e2]
        refine ⟨?_, ?_, ?_⟩
        · rintro ⟨x, hx, hxF⟩
          have hx2 : x ∈ kept ++ t := by
            rcases List.mem_append.mp hx with hk | ht
            · exact List.mem_append_left _ hk
            · exact List.mem_append_right _ (List.mem_filter.mp ht).1
          rw [ih1 ⟨x, hx, hxF⟩, containsNone_false _ _ x hx2 hxF]
          simp
        · intro _ hnil
          exact absurd hnil (List.cons_ne_nil _ _)
        · intro hclean h2 hlast
          cases hft : t.filter (expiredIn w.hbTTL now s.Hosts) with
          | nil =>
            rw [hft] at hlast
            simp only [List.getLast?_singleton, Option.some.injEq] at hlast
            subst hlast
            have hnone : ∀ x ∈ kept ++ t, x.Name ∉ s.Hosts := by
              intro x hx hxF
              rcases List.mem_append.mp hx with hk | ht
              · exact hclean x (List.mem_append_left _ hk) hxF
              · cases hax : alive w.hbTTL now x with
                | true =>
                  exact hclean x
                    (List.mem_append_right _ (List.mem_filter.mpr ⟨ht, hax⟩)) hxF
                | false =>
                  have hmem : x ∈ t.filter (expiredIn w.hbTTL now s.Hosts) :=
                    List.mem_filter.mpr ⟨ht, by simp [expiredIn, hax, hxF]⟩
                  rw [hft] at hmem
                  exact absurd hmem (List.not_mem_nil _)
            rw [ih2 hclean hft, containsNone_true _ _ hnone, (contains_iff _ _).mpr hin]
            exact ⟨kept ++ t, by simp, hnone⟩
          | cons b l =>
            rw [hft, List.getLast?_cons_cons] at hlast
            have hb : b ∈ t.filter (expiredIn w.hbTTL now s.Hosts) := by
              rw [hft]
              exact List.mem_cons_self _ _
            obtain ⟨hbt, hbe⟩ := List.mem_filter.mp hb
            have hbF : b.Name ∈ s.Hosts := by
              simp only [expiredIn, Bool.and_eq_true, decide_eq_true_eq] at hbe
              exact hbe.2
            obtain ⟨snap, hc, hsn⟩ := ih3 hclean h2 (by rw [hft]; exact hlast)
            rw [hc, containsNone_false _ _ b (List.mem_append_right _ hbt) hbF]
            exact ⟨snap, by simp, hsn⟩
      · have e2 : (h :: t).filter (expiredIn w.hbTTL now s.Hosts)
            = t.filter (expiredIn w.hbTTL now s.Hosts) := by
          simp [List.filter_cons, expiredIn, hin]
        have hc : contains s.Hosts h.Name = false := by
          cases hcc : contains s.Hosts h.Name with
          | false => rfl
          | true => exact absurd ((contains_iff _ _).mp hcc) hin
        rw [e2, hc]
        simp only [Bool.and_false, Bool.false_eq_true, if_false, List.nil_append]
        exact ⟨ih1, ih2, ih3⟩

theorem expiredIn_eq (ttl now : Int) (F : List String) :
    expiredIn ttl now F
      = fun x => decide (x.Heartbeat + ttl ≤ now) && decide (x.Name ∈ F) := by
  funext x
  have h : (!decide (x.Heartbeat + ttl > now)) = decide (x.Heartbeat + ttl ≤ now) := by
    by_cases hc : x.Heartbeat + ttl ≤ now
    · have hn : ¬ (x.Heartbeat + ttl > now) := by omega
      simp [hc, hn]
    · have hn : x.Heartbeat + ttl > now := by omega
      simp [hc, hn]
  simp only [expiredIn, alive, h]

theorem sweepCycle_calls_single (w : Warden) (s : EventHandler) (hs : OnlySub w s)
    (now : Int) :
    callsOf s.Handler (sweepCycle w now).2.1
      = (sweepLoop { w with handlers := [s] } now [] w.hosts).2 := by
  rw [callsOf_sweepCycle]
  unfold OnlySub at hs
  rw [hs]
  rfl

/-! ## Helper lemmas: a sweep with nothing to remove, and where invocations come from -/

theorem sweepLoop_all_alive (w : Warden) (now : Int) (rest kept : List Host)
    (hall : ∀ x ∈ rest, alive w.hbTTL now x = true) :
    sweepLoop w now kept rest = (kept ++ rest, []) := by
  induction rest generalizing kept with
  | nil => simp [sweepLoop]
  | cons h t ih =>
    rw [sweepLoop_single_cons_alive w now kept t h (hall h (List.mem_cons_self _ _)),
      ih (kept ++ [h]) (fun x hx => hall x (List.mem_cons_of_mem _ hx))]
    simp

theorem sweepLoop_calls_from (w : Warden) (now : Int) (rest kept : List Host) :
    ∀ c ∈ (sweepLoop w now kept rest).2,
      ∃ h ∈ rest, alive w.hbTTL now h = false
        ∧ ∃ T, c ∈ event { w with hosts := T } false h := by
  induction rest generalizing kept with
  | nil => simp [sweepLoop]
  | cons h t ih =>
    intro c hc
    cases ha : alive w.hbTTL now h with
    | true =>
      rw [sweepLoop_single_cons_alive w now kept t h ha] at hc
      obtain ⟨x, hx, hxa, hT⟩ := ih (kept ++ [h]) c hc
      exact ⟨x, List.mem_cons_of_mem _ hx, hxa, hT⟩
    | false =>
      rw [sweepLoop_single_cons_expired w now kept t h ha] at hc
      rcases List.mem_append.mp hc with hc | hc
      · exact ⟨h, List.mem_cons_self _ _, ha, kept ++ t, hc⟩
      · obtain ⟨x, hx, hxa, hT⟩ := ih kept c hc
        exact ⟨x, List.mem_cons_of_mem _ hx, hxa, hT⟩

theorem eventCase_kind (online : Bool) (host : Host) (onhosts : List Host)
    (s : EventHandler) :
    ∀ c ∈ eventCase online host onhosts s,
      (s.Event = Event.EventOfflineAll → s.Hosts = [] → c.event = Event.EventOffline)
        ∧ (¬ (s.Event = Event.EventOfflineAll ∧ s.Hosts = []) → c.event = s.Event) := by
  intro c hc
  by_cases hF : s.Hosts = []
  · cases online <;> cases he : s.Event <;>
      simp [eventCase, he, hF, contains, slices.Contains] at hc <;> simp [hc, hF]
  · cases online <;> cases he : s.Event <;>
      simp [eventCase, he, hF] at hc <;> simp [hc, hF]

theorem eventLoop_handler_sublist (online : Bool) (host : Host) (onhosts : List Host)
    (hs : List EventHandler) :
    List.Sublist ((eventLoop online host onhosts hs).map Call.handler)
      (hs.map EventHandler.Handler) := by
  induction hs with
  | nil => simp [eventLoop]
  | cons s hs ih =>
    have hlen := eventCase_length online host onhosts s
    have hid := eventCase_handler online host onhosts s
    simp only [eventLoop, List.map_append, List.map_cons]
    cases hc : eventCase online host onhosts s with
    | nil => exact List.Sublist.cons _ ih
    | cons c l =>
      rw [hc] at hlen hid
      cases l with
      | nil =>
        have := hid c (List.mem_cons_self _ _)
        simp only [List.map_cons, List.map_nil, List.singleton_append, this]
        exact List.Sublist.cons₂ _ ih
      | cons d l => simp at hlen

theorem eventLoop_eq_flatten (online : Bool) (host : Host) (onhosts : List Host)
    (hs : List EventHandler) :
    eventLoop online host onhosts hs = (hs.map (eventCase online host onhosts)).flatten := by
  induction hs with
  | nil => rfl
  | cons s hs ih => simp [eventLoop, ih]

theorem eventLoop_append (online : Bool) (host : Host) (onhosts : List Host)
    (a b : List EventHandler) :
    eventLoop online host onhosts (a ++ b)
      = eventLoop online host onhosts a ++ eventLoop online host onhosts b := by
  induction a with
  | nil => rfl
  | cons s a ih => simp [eventLoop, ih]

/-! ## Helper lemmas: Offline subscriptions during the removal loop -/

theorem not_alive_eq (ttl now : Int) :
    (fun x => !alive ttl now x) = fun x => decide (x.Heartbeat + ttl ≤ now) := by
  funext x
  by_cases hc : x.Heartbeat + ttl ≤ now
  · have hn : ¬ (x.Heartbeat + ttl > now) := by omega
    simp [alive, hc, hn]
  · have hn : x.Heartbeat + ttl > now := by omega
    simp [alive, hc, hn]

theorem event_offline_empty (w : Warden) (s : EventHandler) (hw : w.handlers = [s])
    (he : s.Event = Event.EventOffline) (hF : s.Hosts = []) (T : List Host) (h : Host) :
    event { w with hosts := T } false h = [Call.mk s.Handler Event.EventOffline h T] := by
  simp [event, hw, eventLoop, hostsCopy, hostsCopy_foldl, eventCase, he, hF]

theorem sweepLoop_offline (w : Warden) (s : EventHandler) (hw : w.handlers = [s])
    (he : s.Event = Event.EventOffline) (hF : s.Hosts = []) (now : Int)
    (rest kept : List Host) (hnd : (kept ++ rest).Nodup) :
    ((sweepLoop w now kept rest).2.map Call.host
        = rest.filter (fun x => !alive w.hbTTL now x))
      ∧ (∀ c ∈ (sweepLoop w now kept rest).2, c.event = Event.EventOffline)
      ∧ (∀ c ∈ (sweepLoop w now kept rest).2, ∀ x ∈ c.online, x ∈ kept ++ rest)
      ∧ (∀ c ∈ (sweepLoop w now kept rest).2, c.host ∉ c.online)
      ∧ (sweepLoop w now kept rest).2.Pairwise (fun c1 c2 => c1.host ∉ c2.online) := by
  induction rest generalizing kept with
  | nil => simp [sweepLoop]
  | cons h t ih =>
    cases ha : alive w.hbTTL now h with
    | true =>
      rw [sweepLoop_single_cons_alive w now kept t h ha]
      have hnd2 : (kept ++ [h] ++ t).Nodup := by simpa using hnd
      obtain ⟨i1, i2, i3, i4, i5⟩ := ih (kept ++ [h]) hnd2
      refine ⟨?_, i2, ?_, i4, i5⟩
      · rw [i1]
        simp [List.filter_cons, ha]
      · intro c hc x hx
        have := i3 c hc x hx
        simpa using this
    | false =>
      rw [sweepLoop_single_cons_expired w now kept t h ha,
        event_offline_empty w s hw he hF]
      have hsub : List.Sublist (kept ++ t) (kept ++ h :: t) :=
        List.Sublist.append (List.Sublist.refl _) (List.sublist_cons_self _ _)
      have hnd2 : (kept ++ t).Nodup := List.Nodup.sublist hsub hnd
      have hnot : h ∉ kept ++ t := by
        exact (List.nodup_cons.mp (List.nodup_middle.mp hnd)).1
      obtain ⟨i1, i2, i3, i4, i5⟩ := ih kept hnd2
      refine ⟨?_, ?_, ?_, ?_, ?_⟩
      · simp [List.filter_cons, ha, i1]
      · intro c hc
        rcases List.mem_append.mp hc with hc | hc
        · simp only [List.mem_singleton] at hc
          rw [hc]
        · exact i2 c hc
      · intro c hc x hx
        rcases List.mem_append.mp hc with hc | hc
        · simp only [List.mem_singleton] at hc
          rw [hc] at hx
          exact hsub.subset hx
        · exact hsub.subset (i3 c hc x hx)
      · intro c hc
        rcases List.mem_append.mp hc with hc | hc
        · simp only [List.mem_singleton] at hc
          rw [hc]
          exact hnot
        · exact i4 c hc
      · simp only [List.singleton_append, List.pairwise_cons]
        refine ⟨?_, i5⟩
        intro c hc hin
        exact hnot (i3 c hc _ hin)

/-! ## Helper lemmas: the refreshed entry of `Heartbeat` -/

theorem findHostFrom_some_split (name ip : String) (now : Int) (hosts : List Host)
    (i j : Nat) (hf : findHostFrom name hosts i = some j) :
    ∃ pre h post, hosts = pre ++ h :: post
      ∧ (∀ x ∈ pre, x.Name ≠ name) ∧ h.Name = name ∧ i ≤ j
      ∧ hosts.modify (fun h => { h with IP := ip, Heartbeat := now }) (j - i)
          = pre ++ Host.mk name ip now :: post := by
  induction hosts generalizing i with
  | nil => simp [findHostFrom] at hf
  | cons h t ih =>
    by_cases hn : h.Name = name
    · simp only [findHostFrom, hn, beq_self_eq_true, if_true, Option.some.injEq] at hf
      subst hf
      refine ⟨[], h, t, rfl, by simp, hn, le_refl _, ?_⟩
      simp [hn]
    · simp only [findHostFrom, beq_iff_eq, hn, if_false] at hf
      obtain ⟨pre, x, post, ht, hpre, hx, hij, hm⟩ := ih (i + 1) hf
      refine ⟨h :: pre, x, post, by rw [ht]; rfl, ?_, hx, by omega, ?_⟩
      · intro y hy
        rcases List.mem_cons.mp hy with rfl | hy
        · exact hn
        · exact hpre y hy
      · have e : j - i = (j - (i + 1)) + 1 := by omega
        rw [e, List.modify_succ_cons, hm]
        rfl

theorem Heartbeat_present_split (w : Warden) (name ip : String) (now : Int)
    (hpres : ∃ h ∈ w.hosts, h.Name = name) :
    ∃ pre h post, w.hosts = pre ++ h :: post
      ∧ (∀ x ∈ pre, x.Name ≠ name) ∧ h.Name = name
      ∧ (Heartbeat w name ip now).1.hosts = pre ++ Host.mk name ip now :: post := by
  cases hf : findHost w name with
  | none =>
    obtain ⟨h, hh, hn⟩ := hpres
    exact absurd hn ((findHost_none_iff w name).mp hf h hh)
  | some j =>
    obtain ⟨pre, h, post, hw, hpre, hh, _, hm⟩ :=
      findHostFrom_some_split name ip now w.hosts 0 j hf
    refine ⟨pre, h, post, hw, hpre, hh, ?_⟩
    simp only [Heartbeat, hf]
    simpa using hm

/-! ## Claims -/

/-- C6. Expiry sweep result: after one sweep cycle the table is exactly the
sub-list of the hosts with `Heartbeat + ttl > now`, each unchanged and in the
original order; a host with `Heartbeat + ttl <= now` (equality included) is
not in it; ttl and subscriptions are untouched. -/
theorem sweep_result (w : Warden) (now : Int) :
    (sweepCycle w now).1.hosts
        = w.hosts.filter (fun h => decide (h.Heartbeat + w.hbTTL > now))
      ∧ (∀ h, h ∈ (sweepCycle w now).1.hosts ↔ h ∈ w.hosts ∧ ¬ (h.Heartbeat + w.hbTTL ≤ now))
      ∧ List.Sublist (sweepCycle w now).1.hosts w.hosts
      ∧ (sweepCycle w now).1.hbTTL = w.hbTTL
      ∧ (sweepCycle w now).1.handlers = w.handlers := by
  have hh := sweepCycle_hosts w now
  refine ⟨hh, ?_, ?_, rfl, rfl⟩
  · intro h
    rw [hh]
    simp [alive]
  · rw [hh]
    exact List.filter_sublist _

/-- C9 (as stated, refuted). With a host whose heartbeat is later than `now`
the host stays in the table and the wake-up instant is `now + ttl = 5`, not the
minimum `Heartbeat + ttl = 15` over the remaining hosts. -/
theorem next_wakeup_not_min_remaining :
    (sweepCycle lateTable 0).1.hosts = [Host.mk "a" "10.0.0.1" 10]
      ∧ (sweepCycle lateTable 0).2.2 = 5
      ∧ ¬ (∃ h ∈ (sweepCycle lateTable 0).1.hosts,
            (sweepCycle lateTable 0).2.2 = h.Heartbeat + lateTable.hbTTL) := by
  decide

/-- C9 (amended). The wake-up instant of a sweep cycle is the minimum of
`now + ttl` and of `Heartbeat + ttl` over the hosts remaining after the sweep:
it is below all of them and equal to one of them. It is `now + ttl` when no host
remains, and it is the minimum over the remaining hosts when there is one and
none of them has a heartbeat later than `now`. -/
theorem next_wakeup (w : Warden) (now : Int) :
    (sweepCycle w now).2.2 ≤ now + w.hbTTL
      ∧ (∀ h ∈ (sweepCycle w now).1.hosts, (sweepCycle w now).2.2 ≤ h.Heartbeat + w.hbTTL)
      ∧ ((sweepCycle w now).2.2 = now + w.hbTTL
          ∨ ∃ h ∈ (sweepCycle w now).1.hosts, (sweepCycle w now).2.2 = h.Heartbeat + w.hbTTL)
      ∧ ((sweepCycle w now).1.hosts = [] → (sweepCycle w now).2.2 = now + w.hbTTL)
      ∧ ((sweepCycle w now).1.hosts ≠ [] →
          (∀ h ∈ (sweepCycle w now).1.hosts, h.Heartbeat ≤ now) →
          ∃ h ∈ (sweepCycle w now).1.hosts, (sweepCycle w now).2.2 = h.Heartbeat + w.hbTTL) := by
  have e1 : (sweepCycle w now).2.2
      = nextLoop w.hbTTL (now + w.hbTTL) (sweepCycle w now).1.hosts := rfl
  have h1 := nextLoop_le_init w.hbTTL (now + w.hbTTL) (sweepCycle w now).1.hosts
  have h2 := nextLoop_le_mem w.hbTTL (now + w.hbTTL) (sweepCycle w now).1.hosts
  have h3 := nextLoop_attained w.hbTTL (now + w.hbTTL) (sweepCycle w now).1.hosts
  rw [← e1] at h1 h2 h3
  refine ⟨h1, h2, h3, ?_, ?_⟩
  · intro he
    rw [e1, he]
    rfl
  · intro hne hle
    rcases h3 with h3 | h3
    · obtain ⟨x, hx⟩ := List.exists_mem_of_ne_nil _ hne
      refine ⟨x, hx, ?_⟩
      have := h2 x hx
      have := hle x hx
      omega
    · exact h3

/-- C7. Unique-name invariant: every state reachable from an empty table by
heartbeats (any name, address and instant), sweep cycles (any `now`) and
registrations has pairwise distinct host names in its table. -/
theorem unique_names (w : Warden) (hr : Reachable w) : (w.hosts.map Host.Name).Nodup := by
  induction hr with
  | init ttl handlers => simp
  | heartbeat w name ip now _ ih => exact Heartbeat_names_nodup w name ip now ih
  | sweep w now _ ih => exact sweepCycle_names_nodup w now ih
  | register w e hosts handler _ ih => exact ih

/-- C7, at a concrete reachable state: two heartbeats of `a` and one of `b`. -/
theorem unique_names_witness :
    Reachable (Heartbeat (Heartbeat (Heartbeat (NewWarden 5) "a" "10.0.0.1" 0).1
        "b" "10.0.0.2" 1).1 "a" "10.0.0.3" 2).1
      ∧ ((Heartbeat (Heartbeat (Heartbeat (NewWarden 5) "a" "10.0.0.1" 0).1
        "b" "10.0.0.2" 1).1 "a" "10.0.0.3" 2).1.hosts.map Host.Name).Nodup :=
  ⟨Reachable.heartbeat _ _ _ _ (Reachable.heartbeat _ _ _ _
      (Reachable.heartbeat _ _ _ _ (Reachable.init 5 []))),
   unique_names _ (Reachable.heartbeat _ _ _ _ (Reachable.heartbeat _ _ _ _
      (Reachable.heartbeat _ _ _ _ (Reachable.init 5 []))))⟩

/-- C8. Per-host matching and direction exclusivity, for a subscription `s` of
`w` and any transition `event w online host`: an Online subscription is invoked
iff the transition is an online one and its filter is empty or contains the
host name; an Offline subscription is invoked iff the transition is an offline
one and its filter is empty or contains the host name; an offline transition
invokes no Online or OnlineAll subscription and an online transition invokes no
Offline or OfflineAll subscription. -/
theorem per_host_matching (w : Warden) (s : EventHandler) (hs : OnlySub w s)
    (online : Bool) (host : Host) :
    (s.Event = Event.EventOnline →
        (callsOf s.Handler (event w online host) ≠ []
          ↔ online = true ∧ (s.Hosts = [] ∨ host.Name ∈ s.Hosts)))
      ∧ (s.Event = Event.EventOffline →
        (callsOf s.Handler (event w online host) ≠ []
          ↔ online = false ∧ (s.Hosts = [] ∨ host.Name ∈ s.Hosts)))
      ∧ (online = false → s.Event = Event.EventOnline ∨ s.Event = Event.EventOnlineAll →
          callsOf s.Handler (event w online host) = [])
      ∧ (online = true → s.Event = Event.EventOffline ∨ s.Event = Event.EventOfflineAll →
          callsOf s.Handler (event w online host) = []) := by
  rw [callsOf_event_only w s hs]
  have hc := contains_iff s.Hosts host.Name
  refine ⟨?_, ?_, ?_, ?_⟩
  · intro he
    cases online
    · simp [eventCase, he]
    · by_cases h1 : s.Hosts = []
      · simp [eventCase, he, h1]
      · by_cases h2 : host.Name ∈ s.Hosts
        · simp [eventCase, he, h2, hc.mpr h2]
        · have h3 : contains s.Hosts host.Name = false := by
            simpa using fun h => h2 (hc.mp h)
          simp [eventCase, he, h1, h2, h3]
  · intro he
    cases online
    · by_cases h1 : s.Hosts = []
      · simp [eventCase, he, h1]
      · by_cases h2 : host.Name ∈ s.Hosts
        · simp [eventCase, he, h2, hc.mpr h2]
        · have h3 : contains s.Hosts host.Name = false := by
            simpa using fun h => h2 (hc.mp h)
          simp [eventCase, he, h1, h2, h3]
    · simp [eventCase, he]
  · intro ho he
    subst ho
    rcases he with he | he <;> simp [eventCase, he]
  · intro ho he
    subst ho
    rcases he with he | he <;> simp [eventCase, he]

/-- C8, on a table holding `b`: the Online subscription filtered on `a` is
invoked by the online transition of `a`. -/
theorem per_host_matching_witness :
    callsOf 7 (event watchA true (Host.mk "a" "10.0.0.1" 1)) ≠ [] :=
  ((per_host_matching watchA (EventHandler.mk Event.EventOnline ["a"] 7) (by decide)
      true (Host.mk "a" "10.0.0.1" 1)).1 rfl).mpr ⟨rfl, Or.inr (by decide)⟩

/-- C10 (as stated, refuted). The first heartbeat of `a` on an empty table
invokes the Online subscription with an empty snapshot, while the table after
the call holds `a`: the snapshot is not the table after the insertion and does
not contain the new host. -/
theorem snapshot_not_after_insertion :
    (Heartbeat soloOnline "a" "10.0.0.1" 0).2
        = [Call.mk 0 Event.EventOnline (Host.mk "a" "10.0.0.1" 0) []]
      ∧ (Heartbeat soloOnline "a" "10.0.0.1" 0).1.hosts = [Host.mk "a" "10.0.0.1" 0]
      ∧ ¬ (∀ c ∈ (Heartbeat soloOnline "a" "10.0.0.1" 0).2,
            c.online = (Heartbeat soloOnline "a" "10.0.0.1" 0).1.hosts
              ∧ Host.mk "a" "10.0.0.1" 0 ∈ c.online) := by
  decide

/-- C10 (amended). When `Heartbeat(name, ip)` is called for a name absent from
the table, the transition is emitted before the new host is appended: every
invocation receives the new host as `host` and, as snapshot, the table as it
was before the call, which holds no host of that name; the table after the
call is that snapshot followed by the new host. -/
theorem snapshot_before_insertion (w : Warden) (name ip : String) (now : Int)
    (habs : ∀ h ∈ w.hosts, h.Name ≠ name) :
    ∀ c ∈ (Heartbeat w name ip now).2,
      c.host = Host.mk name ip now
        ∧ c.online = w.hosts
        ∧ c.host ∉ c.online
        ∧ (∀ h ∈ c.online, h.Name ≠ name)
        ∧ (Heartbeat w name ip now).1.hosts = c.online ++ [c.host] := by
  intro c hc
  rw [Heartbeat_absent w name ip now habs] at hc ⊢
  obtain ⟨h1, h2⟩ := event_args w true _ c hc
  rw [h1, h2]
  refine ⟨rfl, rfl, ?_, habs, rfl⟩
  intro hin
  exact habs _ hin rfl

/-- C10 (amended), on a table holding `b` at the first heartbeat of `a`. -/
theorem snapshot_before_insertion_witness :
    (∀ h ∈ watchA.hosts, h.Name ≠ "a")
      ∧ ∀ c ∈ (Heartbeat watchA "a" "10.0.0.1" 1).2,
          c.host = Host.mk "a" "10.0.0.1" 1
            ∧ c.online = watchA.hosts
            ∧ c.host ∉ c.online
            ∧ (∀ h ∈ c.online, h.Name ≠ "a")
            ∧ (Heartbeat watchA "a" "10.0.0.1" 1).1.hosts = c.online ++ [c.host] :=
  ⟨by decide, snapshot_before_insertion watchA "a" "10.0.0.1" 1 (by decide)⟩

/-- C2. OnlineAll matching rule. For a host name absent from the table, the
heartbeat that inserts it invokes an OnlineAll subscription with filter `F` iff
`F` is empty or every name of `F` is the new name or the name of a host of the
snapshot (the table before the call), and then exactly once, with the new host
and that snapshot. From the empty table with filter `[A, B]`, `A ≠ B`, the
first of the two heartbeats invokes nothing and the second invokes the handler
once, with the second arrival as host and a snapshot holding the first. -/
theorem onlineAll_rule :
    (∀ (w : Warden) (s : EventHandler) (name ip : String) (now : Int),
        (∀ h ∈ w.hosts, h.Name ≠ name) → OnlySub w s → s.Event = Event.EventOnlineAll →
        ((callsOf s.Handler (Heartbeat w name ip now).2 ≠ []
            ↔ (s.Hosts = [] ∨ ∀ n ∈ s.Hosts, n = name ∨ ∃ h ∈ w.hosts, h.Name = n))
          ∧ (callsOf s.Handler (Heartbeat w name ip now).2 ≠ [] →
              callsOf s.Handler (Heartbeat w name ip now).2
                = [Call.mk s.Handler Event.EventOnlineAll (Host.mk name ip now) w.hosts])))
      ∧ (∀ (ttl : Int) (k : Nat) (A B ipA ipB : String) (tA tB : Int), A ≠ B →
          (Heartbeat ⟨ttl, [], [EventHandler.mk Event.EventOnlineAll [A, B] k]⟩ A ipA tA).2 = []
          ∧ (Heartbeat
              (Heartbeat ⟨ttl, [], [EventHandler.mk Event.EventOnlineAll [A, B] k]⟩ A ipA tA).1
              B ipB tB).2
            = [Call.mk k Event.EventOnlineAll (Host.mk B ipB tB) [Host.mk A ipA tA]]
          ∧ (Heartbeat ⟨ttl, [], [EventHandler.mk Event.EventOnlineAll [A, B] k]⟩ B ipB tB).2 = []
          ∧ (Heartbeat
              (Heartbeat ⟨ttl, [], [EventHandler.mk Event.EventOnlineAll [A, B] k]⟩ B ipB tB).1
              A ipA tA).2
            = [Call.mk k Event.EventOnlineAll (Host.mk A ipA tA) [Host.mk B ipB tB]]) := by
  constructor
  · intro w s name ip now habs hs he
    rw [Heartbeat_absent w name ip now habs]
    simp only [callsOf_event_only w s hs]
    have hca := containsAll_iff (w.hosts ++ [Host.mk name ip now]) s.Hosts
    have hrule : (∀ n ∈ s.Hosts, ∃ h ∈ w.hosts ++ [Host.mk name ip now], h.Name = n)
        ↔ ∀ n ∈ s.Hosts, n = name ∨ ∃ h ∈ w.hosts, h.Name = n := by
      constructor
      · intro h n hn
        obtain ⟨x, hx, hxn⟩ := h n hn
        rcases List.mem_append.mp hx with hx | hx
        · exact Or.inr ⟨x, hx, hxn⟩
        · simp only [List.mem_singleton] at hx
          subst hx
          exact Or.inl hxn.symm
      · intro h n hn
        rcases h n hn with h1 | ⟨x, hx, hxn⟩
        · exact ⟨Host.mk name ip now, by simp, h1.symm⟩
        · exact ⟨x, List.mem_append_left _ hx, hxn⟩
    rw [hrule] at hca
    by_cases h1 : s.Hosts = []
    · simp [eventCase, he, h1]
    · by_cases h2 : ∀ n ∈ s.Hosts, n = name ∨ ∃ h ∈ w.hosts, h.Name = n
      · have h3 := hca.mpr h2
        simp only [eventCase, he, List.nil_append, h3, Bool.or_true, if_true]
        simp only [ne_eq, List.cons_ne_nil, not_false_eq_true, true_iff, implies_true, and_true]
        exact Or.inr h2
      · have h3 : containsAll (w.hosts ++ [Host.mk name ip now]) s.Hosts = false := by
          simpa using fun h => h2 (hca.mp h)
        simp only [eventCase, he, List.nil_append, h3]
        simp [h1, h2]
  · intro ttl k A B ipA ipB tA tB hAB
    have hBA : B ≠ A := fun h => hAB h.symm
    simp [Heartbeat, findHost, findHostFrom, event, eventLoop, eventCase, containsAll,
      slices.Contains, hostsCopy, hAB, hBA]

/-- C2, at the second arrival `b` of the group `a`, `b`: the table holds `a`
and the OnlineAll subscription is invoked. -/
theorem onlineAll_rule_witness :
    callsOf 0 (Heartbeat (Heartbeat groupAB "a" "10.0.0.1" 0).1 "b" "10.0.0.2" 1).2 ≠ [] :=
  ((onlineAll_rule.1 (Heartbeat groupAB "a" "10.0.0.1" 0).1
      (EventHandler.mk Event.EventOnlineAll ["a", "b"] 0) "b" "10.0.0.2" 1
      (by decide) (by decide) rfl).1).mpr (Or.inr (by decide))

/-- C5. Single-transition property. A heartbeat of a name already in the table
invokes no handler at all; a heartbeat of an absent name invokes every
empty-filter Online subscription exactly once; over any sequence of heartbeats
with no sweep in between, such a subscription is invoked at most once per host
name; and after a sweep has removed a host (of a table with distinct names),
the next heartbeat of its name invokes the subscription exactly once again. -/
theorem single_transition :
    (∀ (w : Warden) (name ip : String) (now : Int),
        (∃ h ∈ w.hosts, h.Name = name) → (Heartbeat w name ip now).2 = [])
      ∧ (∀ (w : Warden) (s : EventHandler) (name ip : String) (now : Int),
          (∀ h ∈ w.hosts, h.Name ≠ name) → OnlySub w s →
          s.Event = Event.EventOnline → s.Hosts = [] →
          callsOf s.Handler (Heartbeat w name ip now).2
            = [Call.mk s.Handler Event.EventOnline (Host.mk name ip now) w.hosts])
      ∧ (∀ (w : Warden) (s : EventHandler) (beats : List (String × String × Int))
          (name : String), OnlySub w s → s.Event = Event.EventOnline → s.Hosts = [] →
          countFor name (callsOf s.Handler (heartbeats w beats).2) ≤ 1)
      ∧ (∀ (w : Warden) (s : EventHandler) (now : Int) (h : Host) (ip : String) (now2 : Int),
          (w.hosts.map Host.Name).Nodup → OnlySub w s →
          s.Event = Event.EventOnline → s.Hosts = [] →
          h ∈ w.hosts → h.Heartbeat + w.hbTTL ≤ now →
          callsOf s.Handler (Heartbeat (sweepCycle w now).1 h.Name ip now2).2
            = [Call.mk s.Handler Event.EventOnline (Host.mk h.Name ip now2)
                (sweepCycle w now).1.hosts]) := by
  have hb : ∀ (w : Warden) (s : EventHandler) (name ip : String) (now : Int),
      (∀ h ∈ w.hosts, h.Name ≠ name) → OnlySub w s →
      s.Event = Event.EventOnline → s.Hosts = [] →
      callsOf s.Handler (Heartbeat w name ip now).2
        = [Call.mk s.Handler Event.EventOnline (Host.mk name ip now) w.hosts] := by
    intro w s name ip now habs hs he hf
    rw [Heartbeat_absent w name ip now habs]
    simp only [callsOf_event_only w s hs]
    simp [eventCase, he, hf]
  refine ⟨?_, hb, ?_, ?_⟩
  · intro w name ip now hpres
    exact (Heartbeat_present w name ip now hpres).1
  · intro w s beats name hs _ _
    rw [callsOf_heartbeats]
    unfold OnlySub at hs
    rw [hs]
    exact (heartbeats_single_count s name beats _ rfl).2
  · intro w s now h ip now2 hnd hs he hf hh hexp
    have habs : ∀ x ∈ (sweepCycle w now).1.hosts, x.Name ≠ h.Name := by
      intro x hx hxn
      rw [sweepCycle_hosts] at hx
      obtain ⟨hxw, hxa⟩ := List.mem_filter.mp hx
      have hxh : x = h := List.inj_on_of_nodup_map hnd hxw hh hxn
      subst hxh
      simp only [alive, decide_eq_true_eq] at hxa
      omega
    exact hb (sweepCycle w now).1 s h.Name ip now2 habs hs he hf

/-- C5, after the sweep at 5 that removes `a` (heartbeat at 0, ttl 5): the next
heartbeat of `a` invokes the Online subscription once. -/
theorem single_transition_witness :
    callsOf 0 (Heartbeat (sweepCycle expiredA 5).1 "a" "10.0.0.9" 6).2
      = [Call.mk 0 Event.EventOnline (Host.mk "a" "10.0.0.9" 6) (sweepCycle expiredA 5).1.hosts] :=
  single_transition.2.2.2 expiredA (EventHandler.mk Event.EventOnline [] 0) 5
    (Host.mk "a" "10.0.0.1" 0) "10.0.0.9" 6 (by decide) (by decide) rfl rfl
    (by decide) (by decide)

/-- C1 (the code at the failing input). With one OnlineAll subscription on the
group `a`, `b` and the empty table, the heartbeats of `a`, `b`, `c` invoke the
handler twice: at `b`, which completes the group, and again at `c`, a host
outside the group. -/
theorem onlineAll_fires_again :
    (heartbeats groupAB [("a", "10.0.0.1", 0), ("b", "10.0.0.2", 1), ("c", "10.0.0.3", 2)]).2
      = [Call.mk 0 Event.EventOnlineAll (Host.mk "b" "10.0.0.2" 1) [Host.mk "a" "10.0.0.1" 0],
         Call.mk 0 Event.EventOnlineAll (Host.mk "c" "10.0.0.3" 2)
           [Host.mk "a" "10.0.0.1" 0, Host.mk "b" "10.0.0.2" 1]] := by
  decide

/-- C3. OfflineAll with a non-empty filter `F`. If a sweep cycle removes at
least one host whose name is in `F` and no host whose name is in `F` remains
afterwards, the subscription is invoked exactly once, with the EventOfflineAll
kind, for the last removed host whose name is in `F` and with a snapshot
holding no host of `F`. Otherwise (no host of `F` removed, or a host of `F`
still online) it is not invoked at all. -/
theorem offlineAll_group (w : Warden) (s : EventHandler) (now : Int)
    (hs : OnlySub w s) (he : s.Event = Event.EventOfflineAll) (hF : s.Hosts ≠ []) :
    (((∃ h ∈ w.hosts, h.Heartbeat + w.hbTTL ≤ now ∧ h.Name ∈ s.Hosts)
          ∧ (∀ h ∈ (sweepCycle w now).1.hosts, h.Name ∉ s.Hosts)) →
        ∃ h snap,
          callsOf s.Handler (sweepCycle w now).2.1
              = [Call.mk s.Handler Event.EventOfflineAll h snap]
            ∧ (w.hosts.filter (fun x => decide (x.Heartbeat + w.hbTTL ≤ now)
                  && decide (x.Name ∈ s.Hosts))).getLast? = some h
            ∧ ∀ x ∈ snap, x.Name ∉ s.Hosts)
      ∧ (¬ ((∃ h ∈ w.hosts, h.Heartbeat + w.hbTTL ≤ now ∧ h.Name ∈ s.Hosts)
            ∧ (∀ h ∈ (sweepCycle w now).1.hosts, h.Name ∉ s.Hosts)) →
          callsOf s.Handler (sweepCycle w now).2.1 = []) := by
  rw [sweepCycle_calls_single w s hs now, sweepCycle_hosts]
  obtain ⟨l1, l2, l3⟩ := sweepLoop_offAll { w with handlers := [s] } s rfl he hF now w.hosts []
  simp only [List.nil_append, expiredIn_eq] at l1 l2 l3
  constructor
  · rintro ⟨⟨x, hx, hxe, hxF⟩, hclean⟩
    have hmem : x ∈ w.hosts.filter (fun x => decide (x.Heartbeat + w.hbTTL ≤ now)
        && decide (x.Name ∈ s.Hosts)) :=
      List.mem_filter.mpr ⟨hx, by simp [hxe, hxF]⟩
    cases hl : (w.hosts.filter (fun x => decide (x.Heartbeat + w.hbTTL ≤ now)
        && decide (x.Name ∈ s.Hosts))).getLast? with
    | none =>
      rw [List.getLast?_eq_none_iff.mp hl] at hmem
      exact absurd hmem (List.not_mem_nil _)
    | some h =>
      obtain ⟨snap, hc, hsn⟩ := l3 hclean h hl
      exact ⟨h, snap, hc, rfl, hsn⟩
  · intro hneg
    by_cases hb : ∃ x ∈ w.hosts.filter (alive w.hbTTL now), x.Name ∈ s.Hosts
    · exact l1 hb
    · have hclean : ∀ x ∈ w.hosts.filter (alive w.hbTTL now), x.Name ∉ s.Hosts :=
        fun x hx hxF => hb ⟨x, hx, hxF⟩
      apply l2 hclean
      apply List.filter_eq_nil_iff.mpr
      intro x hx hxe
      simp only [Bool.and_eq_true, decide_eq_true_eq] at hxe
      exact hneg ⟨⟨x, hx, hxe.1, hxe.2⟩, hclean⟩

/-- C3, on a table where the watched `a` and `c` both expire and the unwatched
`b` stays: the last removed watched host is `c`. -/
theorem offlineAll_group_witness :
    ∃ h snap,
      callsOf 2 (sweepCycle groupDown 10).2.1 = [Call.mk 2 Event.EventOfflineAll h snap]
        ∧ (groupDown.hosts.filter (fun x => decide (x.Heartbeat + groupDown.hbTTL ≤ 10)
              && decide (x.Name ∈ ["a", "c"]))).getLast? = some h
        ∧ ∀ x ∈ snap, x.Name ∉ ["a", "c"] :=
  (offlineAll_group groupDown (EventHandler.mk Event.EventOfflineAll ["a", "c"] 2) 10
    (by decide) rfl (by decide)).1
    ⟨⟨Host.mk "a" "10.0.0.1" 1, by decide, by decide, by decide⟩, by decide⟩

/-- C4. Empty-filter OfflineAll. During a sweep cycle the subscription is
invoked iff the sweep removes at least one host and the table is empty
afterwards; it is then invoked exactly once, for the last host removed and with
an empty snapshot (the kind handed over is EventOffline). A heartbeat never
invokes it. -/
theorem offlineAll_empty_filter :
    (∀ (w : Warden) (s : EventHandler) (now : Int),
        OnlySub w s → s.Event = Event.EventOfflineAll → s.Hosts = [] →
        ((callsOf s.Handler (sweepCycle w now).2.1 ≠ []
            ↔ ((∃ h ∈ w.hosts, h.Heartbeat + w.hbTTL ≤ now)
                ∧ (sweepCycle w now).1.hosts = []))
          ∧ (callsOf s.Handler (sweepCycle w now).2.1 ≠ [] →
              ∃ h, (w.hosts.filter
                      (fun x => decide (x.Heartbeat + w.hbTTL ≤ now))).getLast? = some h
                ∧ callsOf s.Handler (sweepCycle w now).2.1
                    = [Call.mk s.Handler Event.EventOffline h []])))
      ∧ (∀ (w : Warden) (s : EventHandler) (name ip : String) (now : Int),
          OnlySub w s → s.Event = Event.EventOfflineAll → s.Hosts = [] →
          callsOf s.Handler (Heartbeat w name ip now).2 = []) := by
  constructor
  · intro w s now hs he hF
    rw [sweepCycle_calls_single w s hs now, sweepCycle_hosts]
    obtain ⟨l1, l2⟩ :=
      sweepLoop_offAll_empty { w with handlers := [s] } s rfl he hF now w.hosts []
    simp only [true_and, forall_const] at l1 l2
    by_cases hc : w.hosts ≠ [] ∧ ∀ x ∈ w.hosts, alive w.hbTTL now x = false
    · obtain ⟨hne, hall⟩ := hc
      have hexp : ∀ x ∈ w.hosts, x.Heartbeat + w.hbTTL ≤ now := by
        intro x hx
        have := hall x hx
        simp only [alive, decide_eq_false_iff_not, not_lt] at this
        exact this
      cases hl : w.hosts.getLast? with
      | none => exact absurd (List.getLast?_eq_none_iff.mp hl) hne
      | some h =>
        have hcall := l1 hall h hl
        rw [hcall]
        have hfe : w.hosts.filter (fun x => decide (x.Heartbeat + w.hbTTL ≤ now)) = w.hosts := by
          apply List.filter_eq_self.mpr
          intro x hx
          simp [hexp x hx]
        refine ⟨?_, ?_⟩
        · simp only [ne_eq, List.cons_ne_nil, not_false_eq_true, true_iff]
          obtain ⟨x, hx⟩ := List.exists_mem_of_ne_nil _ hne
          refine ⟨⟨x, hx, hexp x hx⟩, ?_⟩
          apply List.filter_eq_nil_iff.mpr
          intro y hy
          simp [hall y hy]
        · intro _
          exact ⟨h, by rw [hfe]; exact hl, rfl⟩
    · rw [l2 hc]
      simp only [ne_eq, not_true_eq_false, false_iff, not_and, false_implies, and_true]
      rintro ⟨x, hx, _⟩ hnil
      apply hc
      refine ⟨List.ne_nil_of_mem hx, ?_⟩
      intro y hy
      have := List.filter_eq_nil_iff.mp hnil y hy
      simpa using this
  · intro w s name ip now hs he _
    by_cases hpres : ∃ h ∈ w.hosts, h.Name = name
    · rw [(Heartbeat_present w name ip now hpres).1]
      rfl
    · have habs : ∀ h ∈ w.hosts, h.Name ≠ name := fun h hh hn => hpres ⟨h, hh, hn⟩
      rw [Heartbeat_absent w name ip now habs]
      simp only [callsOf_event_only w s hs]
      simp [eventCase, he]

/-- C4, on a table whose two hosts both expire: the subscription is invoked. -/
theorem offlineAll_empty_filter_witness :
    callsOf 2 (sweepCycle fleetDown 10).2.1 ≠ [] :=
  ((offlineAll_empty_filter.1 fleetDown (EventHandler.mk Event.EventOfflineAll [] 2) 10
    (by decide) rfl rfl).1).mpr ⟨⟨Host.mk "a" "10.0.0.1" 1, by decide, by decide⟩, by decide⟩

/-- C11. Event kind passed to handlers. Every invocation of a subscription `s`,
whether started by `event`, by a heartbeat or by a sweep cycle, carries the
kind `s` was registered under, except that an OfflineAll subscription with an
empty filter is invoked with the Offline kind; the host argument is the
transitioning host (the new host of the heartbeat, a removed host of the
sweep). -/
theorem event_kind (w : Warden) (s : EventHandler) (hs : OnlySub w s) :
    (∀ (online : Bool) (host : Host), ∀ c ∈ callsOf s.Handler (event w online host),
        c.host = host
          ∧ (s.Event = Event.EventOfflineAll → s.Hosts = [] → c.event = Event.EventOffline)
          ∧ (¬ (s.Event = Event.EventOfflineAll ∧ s.Hosts = []) → c.event = s.Event))
      ∧ (∀ (name ip : String) (now : Int), ∀ c ∈ callsOf s.Handler (Heartbeat w name ip now).2,
          c.host = Host.mk name ip now
            ∧ (s.Event = Event.EventOfflineAll → s.Hosts = [] → c.event = Event.EventOffline)
            ∧ (¬ (s.Event = Event.EventOfflineAll ∧ s.Hosts = []) → c.event = s.Event))
      ∧ (∀ (now : Int), ∀ c ∈ callsOf s.Handler (sweepCycle w now).2.1,
          (c.host ∈ w.hosts ∧ c.host.Heartbeat + w.hbTTL ≤ now)
            ∧ (s.Event = Event.EventOfflineAll → s.Hosts = [] → c.event = Event.EventOffline)
            ∧ (¬ (s.Event = Event.EventOfflineAll ∧ s.Hosts = []) → c.event = s.Event)) := by
  have hev : ∀ (T : List Host) (online : Bool) (host : Host),
      ∀ c ∈ event { w with hosts := T, handlers := [s] } online host,
        c.host = host
          ∧ (s.Event = Event.EventOfflineAll → s.Hosts = [] → c.event = Event.EventOffline)
          ∧ (¬ (s.Event = Event.EventOfflineAll ∧ s.Hosts = []) → c.event = s.Event) := by
    intro T online host c hc
    simp only [event, eventLoop, List.append_nil] at hc
    exact ⟨(eventCase_args _ _ _ _ c hc).1, eventCase_kind _ _ _ _ c hc⟩
  have hfil : w.handlers.filter (fun t => t.Handler == s.Handler) = [s] := hs
  refine ⟨?_, ?_, ?_⟩
  · intro online host c hc
    rw [callsOf_event, hfil] at hc
    exact hev w.hosts online host c hc
  · intro name ip now c hc
    by_cases hpres : ∃ h ∈ w.hosts, h.Name = name
    · rw [(Heartbeat_present w name ip now hpres).1] at hc
      simp [callsOf] at hc
    · have habs : ∀ h ∈ w.hosts, h.Name ≠ name := fun h hh hn => hpres ⟨h, hh, hn⟩
      rw [Heartbeat_absent w name ip now habs] at hc
      simp only at hc
      rw [callsOf_event, hfil] at hc
      exact hev w.hosts true _ c hc
  · intro now c hc
    rw [sweepCycle_calls_single w s hs now] at hc
    obtain ⟨h, hh, ha, T, hT⟩ := sweepLoop_calls_from _ now w.hosts [] c hc
    obtain ⟨h1, h2⟩ := hev T false h c hT
    simp only [alive, decide_eq_false_iff_not, not_lt] at ha
    rw [h1]
    exact ⟨⟨hh, ha⟩, h2⟩

/-- C11, on a table whose two hosts both expire: the invocation of the
empty-filter OfflineAll subscription, for the last host `b`, carries the
Offline kind. -/
theorem event_kind_witness :
    Call.mk 2 Event.EventOffline (Host.mk "b" "10.0.0.2" 5) []
        ∈ callsOf 2 (sweepCycle fleetDown 10).2.1
      ∧ (Call.mk 2 Event.EventOffline (Host.mk "b" "10.0.0.2" 5) []).event
          = Event.EventOffline :=
  ⟨by decide,
   (((event_kind fleetDown (EventHandler.mk Event.EventOfflineAll [] 2) (by decide)).2.2
      10 (Call.mk 2 Event.EventOffline (Host.mk "b" "10.0.0.2" 5) []) (by decide)).2.1) rfl rfl⟩

/-- C13. Listing is a faithful, side-effect-free snapshot: `Hosts()` returns a
list equal, entry by entry and in order, to the table (same length, same name,
address and heartbeat instant at every position), leaves the state (table and
subscriptions) unchanged, and a second call returns the same list. -/
theorem hosts_snapshot (w : Warden) :
    (Hosts w).2.length = w.hosts.length
      ∧ (∀ (i : Nat) (hi : i < w.hosts.length) (hj : i < (Hosts w).2.length),
          ((Hosts w).2.get ⟨i, hj⟩).Name = (w.hosts.get ⟨i, hi⟩).Name
            ∧ ((Hosts w).2.get ⟨i, hj⟩).IP = (w.hosts.get ⟨i, hi⟩).IP
            ∧ ((Hosts w).2.get ⟨i, hj⟩).Heartbeat = (w.hosts.get ⟨i, hi⟩).Heartbeat)
      ∧ (Hosts w).2 = w.hosts
      ∧ (Hosts w).1 = w
      ∧ (Hosts (Hosts w).1).2 = (Hosts w).2 := by
  have h : (Hosts w).2 = w.hosts := hostsCopy_eq w
  refine ⟨by rw [h], ?_, h, rfl, rfl⟩
  intro i hi hj
  have hg : (Hosts w).2.get ⟨i, hj⟩ = w.hosts.get ⟨i, hi⟩ := by
    simp only [List.get_eq_getElem]
    congr 1
  rw [hg]
  exact ⟨rfl, rfl, rfl⟩

/-- C14. Dispatch follows registration order. `Register` appends the new
subscription after the existing ones and leaves them, the table and the ttl
unchanged. The invocations of `event` are the concatenation, in registration
order, of what each subscription starts, which is at most one invocation; so
the callbacks invoked form a sub-list of the registered callbacks, and after a
registration the new subscription is served last. -/
theorem dispatch_order :
    (∀ (w : Warden) (e : Event) (hosts : List String) (k : Nat),
        (Register w e hosts k).handlers = w.handlers ++ [EventHandler.mk e hosts k]
          ∧ (Register w e hosts k).hosts = w.hosts
          ∧ (Register w e hosts k).hbTTL = w.hbTTL)
      ∧ (∀ (w : Warden) (online : Bool) (host : Host),
          event w online host
              = (w.handlers.map (eventCase online host w.hosts)).flatten
            ∧ (∀ s, (eventCase online host w.hosts s).length ≤ 1)
            ∧ List.Sublist ((event w online host).map Call.handler)
                (w.handlers.map EventHandler.Handler))
      ∧ (∀ (w : Warden) (e : Event) (hosts : List String) (k : Nat) (online : Bool)
          (host : Host),
          event (Register w e hosts k) online host
            = event w online host ++ eventCase online host w.hosts (EventHandler.mk e hosts k)) := by
  refine ⟨fun w e hosts k => ⟨rfl, rfl, rfl⟩, ?_, ?_⟩
  · intro w online host
    refine ⟨?_, fun s => eventCase_length _ _ _ _, ?_⟩
    · simp only [event, hostsCopy_eq, eventLoop_eq_flatten]
    · exact eventLoop_handler_sublist _ _ _ _
  · intro w e hosts k online host
    simp only [event, Register, eventLoop_append, eventLoop, List.append_nil, hostsCopy_eq]

/-- C15. Sweeper sleep is bounded by ttl: the wake-up instant computed by a
sweep cycle is at most `now + ttl`. -/
theorem sleep_bounded (w : Warden) (now : Int) :
    (sweepCycle w now).2.2 ≤ now + w.hbTTL :=
  nextLoop_le_init w.hbTTL (now + w.hbTTL) (sweepCycle w now).1.hosts

/-- C16. The sweeper never sleeps past an expiry: the wake-up instant `next` is
at most `Heartbeat + ttl` for every host remaining after the sweep, so every
remaining host that has reached its expiry instant at `next` is removed by the
sweep cycle run at `next`. -/
theorem no_oversleep (w : Warden) (now : Int) :
    (∀ h ∈ (sweepCycle w now).1.hosts, (sweepCycle w now).2.2 ≤ h.Heartbeat + w.hbTTL)
      ∧ (∀ h ∈ (sweepCycle w now).1.hosts,
          h.Heartbeat + w.hbTTL ≤ (sweepCycle w now).2.2 →
          h ∉ (sweepCycle (sweepCycle w now).1 (sweepCycle w now).2.2).1.hosts) := by
  refine ⟨nextLoop_le_mem w.hbTTL (now + w.hbTTL) (sweepCycle w now).1.hosts, ?_⟩
  intro h _ hexp hin
  rw [sweepCycle_hosts (sweepCycle w now).1] at hin
  have ha := (List.mem_filter.mp hin).2
  have httl : (sweepCycle w now).1.hbTTL = w.hbTTL := rfl
  simp only [alive, httl, decide_eq_true_eq] at ha
  omega

/-- C18. The sweeper makes progress in time: with a positive ttl the wake-up
instant computed by a sweep cycle is strictly later than `now`. -/
theorem sweeper_progress (w : Warden) (now : Int) (httl : 0 < w.hbTTL) :
    now < (sweepCycle w now).2.2 := by
  rcases nextLoop_attained w.hbTTL (now + w.hbTTL) (sweepCycle w now).1.hosts with h | ⟨x, hx, h⟩
  · have e : (sweepCycle w now).2.2 = now + w.hbTTL := h
    omega
  · have e : (sweepCycle w now).2.2 = x.Heartbeat + w.hbTTL := h
    rw [sweepCycle_hosts] at hx
    have ha := (List.mem_filter.mp hx).2
    simp only [alive, decide_eq_true_eq] at ha
    omega

/-- C18, on a table with an expired and an alive host, ttl 5, at `now = 5`. -/
theorem sweeper_progress_witness : (5 : Int) < (sweepCycle expiredA 5).2.2 :=
  sweeper_progress expiredA 5 (by decide)

/-- C19. Sweep idempotence: a second sweep cycle at the same `now`, run on the
state the first one left, removes no host (the state is unchanged), starts no
invocation and computes the same wake-up instant. -/
theorem sweep_idempotent (w : Warden) (now : Int) :
    (sweepCycle (sweepCycle w now).1 now).1 = (sweepCycle w now).1
      ∧ (sweepCycle (sweepCycle w now).1 now).2.1 = []
      ∧ (sweepCycle (sweepCycle w now).1 now).2.2 = (sweepCycle w now).2.2 := by
  have hall : ∀ x ∈ (sweepCycle w now).1.hosts,
      alive (sweepCycle w now).1.hbTTL now x = true := by
    intro x hx
    rw [sweepCycle_hosts] at hx
    exact (List.mem_filter.mp hx).2
  have hl := sweepLoop_all_alive (sweepCycle w now).1 now (sweepCycle w now).1.hosts [] hall
  have h1 : (sweepCycle (sweepCycle w now).1 now).1 = (sweepCycle w now).1 := by
    simp only [sweepCycle] at hl ⊢
    rw [hl]
    rfl
  refine ⟨h1, ?_, ?_⟩
  · simp only [sweepCycle] at hl ⊢
    rw [hl]
  · have e : (sweepCycle (sweepCycle w now).1 now).2.2
        = nextLoop (sweepCycle w now).1.hbTTL (now + (sweepCycle w now).1.hbTTL)
            (sweepCycle (sweepCycle w now).1 now).1.hosts := rfl
    rw [e, h1]
    rfl

/-- C12. Offline transitions of a sweep. On a table with distinct host names,
the invocations of an empty-filter Offline subscription during one sweep cycle
are, in order, one per removed host in table order, each of the Offline kind;
the snapshot of an invocation holds neither its own host nor the host of any
earlier invocation of the sweep. For a table holding only `A`: a sweep at
`now < A.Heartbeat + ttl` keeps `A` and starts no invocation; a sweep at
`now >= A.Heartbeat + ttl` empties the table and starts one Offline invocation
for `A` with an empty snapshot. -/
theorem offline_transitions :
    (∀ (w : Warden) (s : EventHandler) (now : Int),
        (w.hosts.map Host.Name).Nodup → OnlySub w s →
        s.Event = Event.EventOffline → s.Hosts = [] →
        ((callsOf s.Handler (sweepCycle w now).2.1).map Call.host
            = w.hosts.filter (fun h => decide (h.Heartbeat + w.hbTTL ≤ now)))
          ∧ (∀ c ∈ callsOf s.Handler (sweepCycle w now).2.1, c.event = Event.EventOffline)
          ∧ (∀ c ∈ callsOf s.Handler (sweepCycle w now).2.1, c.host ∉ c.online)
          ∧ (callsOf s.Handler (sweepCycle w now).2.1).Pairwise
              (fun c1 c2 => c1.host ∉ c2.online))
      ∧ (∀ (w : Warden) (A : Host) (now : Int),
          w.hosts = [A] → now < A.Heartbeat + w.hbTTL →
          (sweepCycle w now).1.hosts = [A] ∧ (sweepCycle w now).2.1 = [])
      ∧ (∀ (w : Warden) (s : EventHandler) (A : Host) (now : Int),
          w.hosts = [A] → A.Heartbeat + w.hbTTL ≤ now → OnlySub w s →
          s.Event = Event.EventOffline → s.Hosts = [] →
          (sweepCycle w now).1.hosts = []
            ∧ callsOf s.Handler (sweepCycle w now).2.1
                = [Call.mk s.Handler Event.EventOffline A []]) := by
  refine ⟨?_, ?_, ?_⟩
  · intro w s now hnd hs he hF
    rw [sweepCycle_calls_single w s hs now]
    have hnd2 : ([] ++ w.hosts).Nodup := by
      simpa using List.Nodup.of_map _ hnd
    obtain ⟨l1, l2, _, l4, l5⟩ :=
      sweepLoop_offline { w with handlers := [s] } s rfl he hF now w.hosts [] hnd2
    rw [not_alive_eq] at l1
    exact ⟨l1, l2, l4, l5⟩
  · intro w A now hw ha
    have hgt : A.Heartbeat + w.hbTTL > now := by omega
    simp [sweepCycle, hw, sweepLoop, hgt]
  · intro w s A now hw ha hs he hF
    have hngt : ¬ (A.Heartbeat + w.hbTTL > now) := by omega
    constructor
    · simp [sweepCycle, hw, sweepLoop, hngt]
    · rw [sweepCycle_calls_single w s hs now, hw]
      simp [sweepLoop, hngt, event, eventLoop, eventCase, he, hF, hostsCopy]

/-- C12, on a table where `a` and `c` expire and `b` stays: the Offline
subscription is invoked for `a` and then for `c`. -/
theorem offline_transitions_witness :
    (callsOf 4 (sweepCycle watchOffline 10).2.1).map Call.host
      = watchOffline.hosts.filter (fun h => decide (h.Heartbeat + watchOffline.hbTTL ≤ 10)) :=
  (offline_transitions.1 watchOffline (EventHandler.mk Event.EventOffline [] 4) 10
    (by decide) (by decide) rfl rfl).1

/-- C17. Heartbeat postcondition and frame. On a table with distinct host
names, after `Heartbeat(name, ip)` at `now` the hosts called `name` are exactly
the one entry `(name, ip, now)`; the hosts with another name are the same, in
the same order, as before; if `name` was absent the new entry is appended last
and the length grows by one; if it was present the length and the sequence of
names are unchanged; subscriptions and ttl are unchanged. -/
theorem heartbeat_post (w : Warden) (name ip : String) (now : Int)
    (hnd : (w.hosts.map Host.Name).Nodup) :
    (Heartbeat w name ip now).1.hosts.filter (fun h => h.Name == name) = [Host.mk name ip now]
      ∧ (Heartbeat w name ip now).1.hosts.filter (fun h => !(h.Name == name))
          = w.hosts.filter (fun h => !(h.Name == name))
      ∧ ((∀ h ∈ w.hosts, h.Name ≠ name) →
          (Heartbeat w name ip now).1.hosts = w.hosts ++ [Host.mk name ip now]
            ∧ (Heartbeat w name ip now).1.hosts.length = w.hosts.length + 1)
      ∧ ((∃ h ∈ w.hosts, h.Name = name) →
          (Heartbeat w name ip now).1.hosts.length = w.hosts.length
            ∧ (Heartbeat w name ip now).1.hosts.map Host.Name = w.hosts.map Host.Name)
      ∧ (Heartbeat w name ip now).1.handlers = w.handlers
      ∧ (Heartbeat w name ip now).1.hbTTL = w.hbTTL := by
  have hnone : ∀ l : List Host, (∀ x ∈ l, x.Name ≠ name) →
      l.filter (fun h => h.Name == name) = [] := by
    intro l hl
    apply List.filter_eq_nil_iff.mpr
    intro x hx
    simp [hl x hx]
  have hall : ∀ l : List Host, (∀ x ∈ l, x.Name ≠ name) →
      l.filter (fun h => !(h.Name == name)) = l := by
    intro l hl
    apply List.filter_eq_self.mpr
    intro x hx
    simp [hl x hx]
  by_cases hpres : ∃ h ∈ w.hosts, h.Name = name
  · obtain ⟨pre, h, post, hw, hpre, hh, hres⟩ := Heartbeat_present_split w name ip now hpres
    obtain ⟨_, hnames, hhand, httl⟩ := Heartbeat_present w name ip now hpres
    have hpost : ∀ x ∈ post, x.Name ≠ name := by
      intro x hx hxn
      rw [hw] at hnd
      simp only [List.map_append, List.map_cons] at hnd
      have h2 := (List.nodup_cons.mp (List.nodup_middle.mp hnd)).1
      apply h2
      rw [hh, ← hxn]
      exact List.mem_append_right _ (List.mem_map_of_mem _ hx)
    refine ⟨?_, ?_, ?_, ?_, hhand, httl⟩
    · rw [hres]
      simp [List.filter_append, List.filter_cons, hnone pre hpre, hnone post hpost]
    · rw [hres, hw]
      simp [List.filter_append, List.filter_cons, hh]
    · intro habs
      obtain ⟨x, hx, hxn⟩ := hpres
      exact absurd hxn (habs x hx)
    · intro _
      refine ⟨?_, hnames⟩
      rw [hres, hw]
      simp
  · have habs : ∀ h ∈ w.hosts, h.Name ≠ name := fun h hh hn => hpres ⟨h, hh, hn⟩
    rw [Heartbeat_absent w name ip now habs]
    refine ⟨?_, ?_, ?_, ?_, rfl, rfl⟩
    · simp [List.filter_append, hnone w.hosts habs]
    · simp [List.filter_append]
    · intro _
      simp
    · intro hp
      exact absurd hp hpres

/-- C17, refreshing `a` on a table holding `a` and `b`. -/
theorem heartbeat_post_witness :
    (Heartbeat expiredA "a" "10.0.0.9" 7).1.hosts.filter (fun h => h.Name == "a")
      = [Host.mk "a" "10.0.0.9" 7] :=
  (heartbeat_post expiredA "a" "10.0.0.9" 7 (by decide)).1

end warden
